import Mathlib

/-!
Verification of the SymboScript front end: lexer, parser and scope vault.

The definitions below are a shallow embedding of the Rust sources
`src/lexer/src/lexer/mod.rs`, `src/parser/src/parser/mod.rs`,
`src/parser/src/parser/macro_utils.rs` and
`src/interpreter/src/interpreter/mod.rs`, with the token shapes taken from
the data-only crate `src/types/src/lexer.rs`.  Rust strings are embedded as
`List Char`; offsets are UTF-8 byte offsets computed with `Char.utf8Size`,
mirroring `Lexer::offset` (`source.len() - chars.as_str().len()`).
-/

namespace SymboScript

/-- Token kinds, from `src/types/src/lexer.rs` (`TokenKind`).  The lexer
crate's own (newer, not vendored) types module names `Multiply`/`Divide` as
`Star`/`Slash` and `Str` as `String`; one constructor serves both names.
Kinds referenced by the parser that postdate the vendored types crate
(`Start`, `Scope`, `Async`, `Try`, `Catch`, `Finally`, `Throw`, `Yield`,
`Block`, `Await`, `Delete`, `New`) are included as well. -/
inductive TokenKind where
  | Eof | Comment | Unexpected | Start
  | Semicolon | Comma | Colon | Dot
  | Plus | Minus | Multiply | Divide | Power | Range | Modulo
  | BitAnd | BitOr | BitNot | BitXor | BitLeftShift | BitRightShift
  | PlusPlus | MinusMinus | Question
  | And | Or | Xor | Not
  | Assign | FormulaAssign | PlusAssign | MinusAssign | MultiplyAssign
  | DivideAssign | PowerAssign | ModuloAssign
  | Equal | NotEqual | Less | LessEqual | Greater | GreaterEqual
  | LParen | RParen | LBrace | RBrace | LBracket | RBracket
  | Identifier | Number | Str
  | True | False
  | If | Else | While | For | Loop | Let | Return | Break | Continue
  | Function | In
  | Scope | Async | Try | Catch | Finally | Throw | Yield | Block
  | Await | Delete | New
deriving DecidableEq

/-- Token payload, from `src/types/src/lexer.rs` (`TokenValue`).  The Rust
`Number` variant carries an `f64` produced by `str::parse::<f64>`; the
embedding records the exact text handed to that parser instead of modelling
IEEE semantics, so two tokens have equal payloads iff the decoded texts
agree. -/
inductive TokenValue where
  | None
  | Number (text : List Char)
  | Str (text : List Char)
deriving DecidableEq

/-- Token, from `src/types/src/lexer.rs`.  The Rust field `end` is named
`endPos` here because `end` is a Lean keyword. -/
structure Token where
  kind : TokenKind
  start : Nat
  endPos : Nat
  value : TokenValue
deriving DecidableEq

/-- Single-quote character (named to keep quote characters out of the
source text of patterns). -/
def squote : Char := Char.ofNat 39

/-- Backquote character. -/
def backquote : Char := Char.ofNat 96

/-- Rust pattern `'0'..='9'`. -/
def isDigitChar (c : Char) : Bool := '0' ≤ c && c ≤ '9'

/-- Rust pattern `'a'..='z' | 'A'..='Z' | '_'` (identifier start). -/
def isIdentStart (c : Char) : Bool :=
  ('a' ≤ c && c ≤ 'z') || ('A' ≤ c && c ≤ 'Z') || c = '_'

/-- Rust pattern `'a'..='z' | 'A'..='Z' | '_' | '0'..='9'` (identifier
continuation, `read_identifier`). -/
def isIdentCont (c : Char) : Bool := isIdentStart c || isDigitChar c

/-- Characters skipped by `Lexer::skip_trivia`. -/
def isTrivia (c : Char) : Bool :=
  c = ' ' || c = '\t' || c = '\n' || c = '\r'

/-- `Lexer::skip_trivia`: drop leading trivia from the remaining input. -/
def skip_trivia (l : List Char) : List Char := l.dropWhile isTrivia

/-- UTF-8 byte length of the embedded string, mirroring Rust `str::len`. -/
def byteLen (l : List Char) : Nat := (l.map Char.utf8Size).sum

/-- `Lexer::read_one_more`: peek at the next character; if it matches the
expected continuation consume it and return the wide kind, else return the
narrow kind. -/
def read_one_more (ch : Char) (kindExpected kindUnexpected : TokenKind) :
    List Char → TokenKind × List Char
  | [] => (kindUnexpected, [])
  | c :: r => if c = ch then (kindExpected, r) else (kindUnexpected, c :: r)

/-- `Lexer::peek_two`.  In the Rust source both statements construct a fresh
iterator with `new_chars.chars()`, so the first `next()` call is discarded
and the value returned is the FIRST remaining character, not the second.
The embedding reproduces that behaviour faithfully. -/
def peek_two (l : List Char) : Option Char :=
  let new_chars := l
  let _discarded := new_chars.head?
  new_chars.head?

mutual

/-- `Lexer::read_number`: consume digits; on `.`/`e`/`E` consult `peek_two`
and continue (consuming two characters) only if it reports a digit.
Returns the remaining input (the token kind is always `Number`). -/
def read_number : List Char → List Char
  | [] => []
  | c :: r =>
    if isDigitChar c then read_number r
    else if c = '.' || c = 'e' || c = 'E' then
      match peek_two (c :: r) with
      | some c2 => if isDigitChar c2 then read_number_after_two r else c :: r
      | none => c :: r
    else c :: r

/-- Second `self.next()` of the continue branch of `read_number` (skip one
character, then resume the scanning loop). -/
def read_number_after_two : List Char → List Char
  | [] => []
  | _ :: r2 => read_number r2

end

/-- `Lexer::read_dot`: `..` is a range operator, a dot followed by a digit
re-enters number scanning, otherwise it is a member-access dot.  The Rust
digit test is `("0"..="9").contains(&peek.unwrap_or_default().to_string())`,
which on one-character strings coincides with `'0' <= c && c <= '9'` (and
the `'\0'` default of an absent peek fails it). -/
def read_dot : List Char → TokenKind × List Char
  | [] => (.Dot, [])
  | c :: r =>
    if c = '.' then (.Range, r)
    else if isDigitChar c then (.Number, read_number (c :: r))
    else (.Dot, c :: r)

mutual

/-- `Lexer::read_string`: scan until the opening quote character recurs; a
backslash skips exactly the next character; end of input yields
`Unexpected`. -/
def read_string (initChar : Char) : List Char → TokenKind × List Char
  | [] => (.Unexpected, [])
  | c :: r =>
    if c = initChar then (.Str, r)
    else if c = '\\' then read_string_escape initChar r
    else read_string initChar r

/-- Second `self.next()` of the backslash arm of `read_string` (skip the
escaped character, then resume the scanning loop). -/
def read_string_escape (initChar : Char) : List Char → TokenKind × List Char
  | [] => (.Unexpected, [])
  | _ :: r2 => read_string initChar r2

end

/-- `Lexer::read_comment`: scan to (and consume) the end-of-line. -/
def read_comment : List Char → TokenKind × List Char
  | [] => (.Comment, [])
  | c :: r => if c = '\n' then (.Comment, r) else read_comment r

/-- `Lexer::read_identifier`: consume identifier continuation characters;
returns the remaining input (the kind is always `Identifier`). -/
def read_identifier : List Char → List Char
  | [] => []
  | c :: r => if isIdentCont c then read_identifier r else c :: r

/-- `Lexer::next_kind`: dispatch on the first character (already consumed)
in the order of the Rust `match`.  `Star`/`Slash` of the lexer's local
types module appear as `Multiply`/`Divide`. -/
def next_kind : List Char → TokenKind × List Char
  | [] => (.Eof, [])
  | c :: r =>
    if c = '+' then read_one_more '=' .PlusAssign .Plus r
    else if c = '-' then read_one_more '=' .MinusAssign .Minus r
    else if c = '*' then read_one_more '=' .MultiplyAssign .Multiply r
    else if c = '/' then read_one_more '=' .DivideAssign .Divide r
    else if c = '^' then read_one_more '=' .PowerAssign .Power r
    else if c = '%' then read_one_more '=' .ModuloAssign .Modulo r
    else if c = '<' then read_one_more '=' .LessEqual .Less r
    else if c = '>' then read_one_more '=' .GreaterEqual .Greater r
    else if c = '!' then read_one_more '=' .NotEqual .Not r
    else if c = '(' then (.LParen, r)
    else if c = ')' then (.RParen, r)
    else if c = '{' then (.LBrace, r)
    else if c = '}' then (.RBrace, r)
    else if c = '[' then (.LBracket, r)
    else if c = ']' then (.RBracket, r)
    else if c = ';' then (.Semicolon, r)
    else if c = ',' then (.Comma, r)
    else if c = ':' then read_one_more '=' .FormulaAssign .Colon r
    else if c = '.' then read_dot r
    else if c = '=' then read_one_more '=' .Equal .Assign r
    else if isDigitChar c then (.Number, read_number r)
    else if isIdentStart c then (.Identifier, read_identifier r)
    else if c = '"' || c = squote || c = backquote then read_string c r
    else if c = '#' then read_comment r
    else (.Unexpected, r)

/-- Keyword table of `Lexer::match_keyword`, in source order. -/
def keywordTable : List (List Char × TokenKind) :=
  [("if".data, .If), ("else".data, .Else), ("while".data, .While),
   ("loop".data, .Loop), ("for".data, .For), ("let".data, .Let),
   ("fn".data, .Function), ("return".data, .Return),
   ("break".data, .Break), ("continue".data, .Continue),
   ("in".data, .In), ("true".data, .True), ("false".data, .False)]

/-- Sequential string comparison carried out by the Rust `match ident`
(first matching arm wins; the wildcard arm yields `Identifier`). -/
def kwLookup (s : List Char) : List (List Char × TokenKind) → TokenKind
  | [] => .Identifier
  | (k, v) :: rest => if s = k then v else kwLookup s rest

/-- `Lexer::match_keyword` with its length pre-filter. -/
def match_keyword (ident : List Char) : TokenKind :=
  if ident.length = 1 || ident.length > 10 then .Identifier
  else kwLookup ident keywordTable

/-- Rust `str::trim` on the embedded string. -/
def trimChars (l : List Char) : List Char :=
  ((l.dropWhile Char.isWhitespace).reverse.dropWhile Char.isWhitespace).reverse

/-- One diagnostic as handed to `report_error` (message text plus the byte
span); rendering is outside the core's contract. -/
structure Diag where
  message : String
  start : Nat
  endPos : Nat
deriving DecidableEq

/-- Result of one `Lexer::next_token` step: the token, the remaining input,
and the diagnostic issued (the `Unexpected` arm calls `report_error`). -/
structure NextTokenResult where
  token : Token
  rest : List Char
  report : Option Diag
deriving DecidableEq

/-- The value/kind fix-up performed by the `match kind` block inside
`Lexer::next_token`, given the original kind, the trimmed lexeme slice and
the token span.  Returns the final kind, the payload and the diagnostic. -/
def adjust_token (kind0 : TokenKind) (s : List Char) (start stop : Nat) :
    TokenKind × TokenValue × Option Diag :=
  match kind0 with
  | .Number => (.Number, .Number (trimChars s), none)
  | .Identifier =>
    let k := match_keyword s
    match k with
    | .If | .While | .For => (k, .None, none)
    | _ => (k, .Str s, none)
  | .Str => (.Str, .Str ((s.drop 1).dropLast), none)
  | .Comment => (.Comment, .Str (s.drop 1), none)
  | .Unexpected => (.Unexpected, .None, some ⟨"Unexpected token", start, stop⟩)
  | k => (k, .None, none)

/-- `Lexer::next_token`: skip trivia, read one kind, compute the byte span
and decode the payload.  `srcLen` is the byte length of the whole source;
the remaining input is always a suffix of the source, so
`offset = srcLen - byteLen remaining`. -/
def next_token (srcLen : Nat) (chars : List Char) : NextTokenResult :=
  let rem1 := skip_trivia chars
  let start := srcLen - byteLen rem1
  let kr := next_kind rem1
  let stop := srcLen - byteLen kr.2
  let s := trimChars (rem1.take (rem1.length - kr.2.length))
  let a := adjust_token kr.1 s start stop
  ⟨⟨a.1, start, stop, a.2.1⟩, kr.2, a.2.2⟩

theorem read_one_more_sfx (ch : Char) (k1 k2 : TokenKind) (l : List Char) :
    (read_one_more ch k1 k2 l).2 <:+ l := by
  match l with
  | [] => simp [read_one_more]
  | c :: r =>
    simp only [read_one_more]
    split
    · exact (List.suffix_cons c r)
    · exact List.suffix_refl _

theorem read_number_sfx_aux :
    ∀ (n : Nat) (l : List Char), l.length ≤ n →
      read_number l <:+ l ∧ read_number_after_two l <:+ l := by
  intro n
  induction n with
  | zero =>
    intro l h
    have : l = [] := List.length_eq_zero.mp (Nat.le_zero.mp h)
    subst this
    simp [read_number, read_number_after_two]
  | succ n ih =>
    intro l h
    match l with
    | [] => simp [read_number, read_number_after_two]
    | c :: r =>
      have hr : r.length ≤ n := by
        simp only [List.length_cons] at h; omega
      constructor
      · rw [read_number]
        repeat' split
        all_goals
          first
          | exact ((ih r hr).1).trans (List.suffix_cons c r)
          | exact ((ih r hr).2).trans (List.suffix_cons c r)
          | exact List.suffix_refl _
      · rw [read_number_after_two]
        exact ((ih r hr).1).trans (List.suffix_cons c r)

theorem read_number_sfx (l : List Char) : read_number l <:+ l :=
  (read_number_sfx_aux l.length l (Nat.le_refl _)).1

theorem read_dot_sfx (l : List Char) : (read_dot l).2 <:+ l := by
  match l with
  | [] => simp [read_dot]
  | c :: r =>
    simp only [read_dot]
    split
    · exact (List.suffix_cons c r)
    · split
      · exact read_number_sfx (c :: r)
      · exact List.suffix_refl _

theorem read_string_sfx_aux (q : Char) :
    ∀ (n : Nat) (l : List Char), l.length ≤ n →
      (read_string q l).2 <:+ l ∧ (read_string_escape q l).2 <:+ l := by
  intro n
  induction n with
  | zero =>
    intro l h
    have : l = [] := List.length_eq_zero.mp (Nat.le_zero.mp h)
    subst this
    simp [read_string, read_string_escape]
  | succ n ih =>
    intro l h
    match l with
    | [] => simp [read_string, read_string_escape]
    | c :: r =>
      have hr : r.length ≤ n := by
        simp only [List.length_cons] at h; omega
      constructor
      · rw [read_string]
        repeat' split
        all_goals
          first
          | exact (List.suffix_cons c r)
          | exact ((ih r hr).1).trans (List.suffix_cons c r)
          | exact ((ih r hr).2).trans (List.suffix_cons c r)
      · rw [read_string_escape]
        exact ((ih r hr).1).trans (List.suffix_cons c r)

theorem read_string_sfx (q : Char) (l : List Char) :
    (read_string q l).2 <:+ l :=
  (read_string_sfx_aux q l.length l (Nat.le_refl _)).1

theorem read_comment_sfx (l : List Char) : (read_comment l).2 <:+ l := by
  match l with
  | [] => simp [read_comment]
  | c :: r =>
    simp only [read_comment]
    split
    · exact (List.suffix_cons c r)
    · exact (read_comment_sfx r).trans (List.suffix_cons c r)

theorem read_identifier_sfx (l : List Char) : read_identifier l <:+ l := by
  match l with
  | [] => simp [read_identifier]
  | c :: r =>
    simp only [read_identifier]
    split
    · exact (read_identifier_sfx r).trans (List.suffix_cons c r)
    · exact List.suffix_refl _

theorem byteLen_append (a b : List Char) :
    byteLen (a ++ b) = byteLen a + byteLen b := by
  simp [byteLen]

theorem byteLen_le_of_sfx {a b : List Char} (h : a <:+ b) :
    byteLen a ≤ byteLen b := by
  obtain ⟨t, rfl⟩ := h
  simp [byteLen_append]

theorem read_one_more_fst (ch : Char) (k1 k2 : TokenKind) (l : List Char) :
    (read_one_more ch k1 k2 l).1 = k1 ∨ (read_one_more ch k1 k2 l).1 = k2 := by
  match l with
  | [] => simp [read_one_more]
  | c :: r =>
    simp only [read_one_more]
    split
    · exact Or.inl rfl
    · exact Or.inr rfl

theorem read_dot_fst (l : List Char) :
    (read_dot l).1 = .Range ∨ (read_dot l).1 = .Number ∨
      (read_dot l).1 = .Dot := by
  match l with
  | [] => simp [read_dot]
  | c :: r =>
    simp only [read_dot]
    repeat' split
    all_goals simp

theorem read_string_fst_aux (q : Char) :
    ∀ (n : Nat) (l : List Char), l.length ≤ n →
      ((read_string q l).1 = .Str ∨ (read_string q l).1 = .Unexpected) ∧
      ((read_string_escape q l).1 = .Str ∨
        (read_string_escape q l).1 = .Unexpected) := by
  intro n
  induction n with
  | zero =>
    intro l h
    have : l = [] := List.length_eq_zero.mp (Nat.le_zero.mp h)
    subst this
    simp [read_string, read_string_escape]
  | succ n ih =>
    intro l h
    match l with
    | [] => simp [read_string, read_string_escape]
    | c :: r =>
      have hr : r.length ≤ n := by
        simp only [List.length_cons] at h; omega
      constructor
      · rw [read_string]
        repeat' split
        all_goals
          first
          | simp
          | exact (ih r hr).1
          | exact (ih r hr).2
      · rw [read_string_escape]
        exact (ih r hr).1

theorem read_string_fst (q : Char) (l : List Char) :
    (read_string q l).1 = .Str ∨ (read_string q l).1 = .Unexpected :=
  (read_string_fst_aux q l.length l (Nat.le_refl _)).1

theorem read_comment_fst (l : List Char) : (read_comment l).1 = .Comment := by
  match l with
  | [] => simp [read_comment]
  | c :: r =>
    simp only [read_comment]
    split
    · simp
    · exact read_comment_fst r

set_option maxHeartbeats 3200000 in
/-- On nonempty input `next_kind` consumes at least the dispatching
character (the remaining input is a suffix of the tail), and it never
reports `Eof`. -/
theorem next_kind_cons_spec (c : Char) (r : List Char) :
    (next_kind (c :: r)).2 <:+ r ∧ (next_kind (c :: r)).1 ≠ .Eof := by
  rw [next_kind]
  by_cases h1 : c = '+'
  · rw [if_pos h1]
    refine ⟨read_one_more_sfx _ _ _ r, ?_⟩
    rcases read_one_more_fst '=' .PlusAssign .Plus r with hk | hk <;> simp [hk]
  rw [if_neg h1]
  by_cases h2 : c = '-'
  · rw [if_pos h2]
    refine ⟨read_one_more_sfx _ _ _ r, ?_⟩
    rcases read_one_more_fst '=' .MinusAssign .Minus r with hk | hk <;> simp [hk]
  rw [if_neg h2]
  by_cases h3 : c = '*'
  · rw [if_pos h3]
    refine ⟨read_one_more_sfx _ _ _ r, ?_⟩
    rcases read_one_more_fst '=' .MultiplyAssign .Multiply r with hk | hk <;> simp [hk]
  rw [if_neg h3]
  by_cases h4 : c = '/'
  · rw [if_pos h4]
    refine ⟨read_one_more_sfx _ _ _ r, ?_⟩
    rcases read_one_more_fst '=' .DivideAssign .Divide r with hk | hk <;> simp [hk]
  rw [if_neg h4]
  by_cases h5 : c = '^'
  · rw [if_pos h5]
    refine ⟨read_one_more_sfx _ _ _ r, ?_⟩
    rcases read_one_more_fst '=' .PowerAssign .Power r with hk | hk <;> simp [hk]
  rw [if_neg h5]
  by_cases h6 : c = '%'
  · rw [if_pos h6]
    refine ⟨read_one_more_sfx _ _ _ r, ?_⟩
    rcases read_one_more_fst '=' .ModuloAssign .Modulo r with hk | hk <;> simp [hk]
  rw [if_neg h6]
  by_cases h7 : c = '<'
  · rw [if_pos h7]
    refine ⟨read_one_more_sfx _ _ _ r, ?_⟩
    rcases read_one_more_fst '=' .LessEqual .Less r with hk | hk <;> simp [hk]
  rw [if_neg h7]
  by_cases h8 : c = '>'
  · rw [if_pos h8]
    refine ⟨read_one_more_sfx _ _ _ r, ?_⟩
    rcases read_one_more_fst '=' .GreaterEqual .Greater r with hk | hk <;> simp [hk]
  rw [if_neg h8]
  by_cases h9 : c = '!'
  · rw [if_pos h9]
    refine ⟨read_one_more_sfx _ _ _ r, ?_⟩
    rcases read_one_more_fst '=' .NotEqual .Not r with hk | hk <;> simp [hk]
  rw [if_neg h9]
  by_cases h10 : c = '('
  · rw [if_pos h10]; exact ⟨List.suffix_refl r, by simp⟩
  rw [if_neg h10]
  by_cases h11 : c = ')'
  · rw [if_pos h11]; exact ⟨List.suffix_refl r, by simp⟩
  rw [if_neg h11]
  by_cases h12 : c = '{'
  · rw [if_pos h12]; exact ⟨List.suffix_refl r, by simp⟩
  rw [if_neg h12]
  by_cases h13 : c = '}'
  · rw [if_pos h13]; exact ⟨List.suffix_refl r, by simp⟩
  rw [if_neg h13]
  by_cases h14 : c = '['
  · rw [if_pos h14]; exact ⟨List.suffix_refl r, by simp⟩
  rw [if_neg h14]
  by_cases h15 : c = ']'
  · rw [if_pos h15]; exact ⟨List.suffix_refl r, by simp⟩
  rw [if_neg h15]
  by_cases h16 : c = ';'
  · rw [if_pos h16]; exact ⟨List.suffix_refl r, by simp⟩
  rw [if_neg h16]
  by_cases h17 : c = ','
  · rw [if_pos h17]; exact ⟨List.suffix_refl r, by simp⟩
  rw [if_neg h17]
  by_cases h18 : c = ':'
  · rw [if_pos h18]
    refine ⟨read_one_more_sfx _ _ _ r, ?_⟩
    rcases read_one_more_fst '=' .FormulaAssign .Colon r with hk | hk <;> simp [hk]
  rw [if_neg h18]
  by_cases h19 : c = '.'
  · rw [if_pos h19]
    refine ⟨read_dot_sfx r, ?_⟩
    rcases read_dot_fst r with hk | hk | hk <;> simp [hk]
  rw [if_neg h19]
  by_cases h20 : c = '='
  · rw [if_pos h20]
    refine ⟨read_one_more_sfx _ _ _ r, ?_⟩
    rcases read_one_more_fst '=' .Equal .Assign r with hk | hk <;> simp [hk]
  rw [if_neg h20]
  by_cases h21 : isDigitChar c = true
  · rw [if_pos h21]; exact ⟨read_number_sfx r, by simp⟩
  rw [if_neg h21]
  by_cases h22 : isIdentStart c = true
  · rw [if_pos h22]; exact ⟨read_identifier_sfx r, by simp⟩
  rw [if_neg h22]
  by_cases h23 : (c = '"' || c = squote || c = backquote : Bool) = true
  · rw [if_pos h23]
    refine ⟨read_string_sfx c r, ?_⟩
    rcases read_string_fst c r with hk | hk <;> simp [hk]
  rw [if_neg h23]
  by_cases h24 : c = '#'
  · rw [if_pos h24]
    refine ⟨read_comment_sfx r, ?_⟩
    rw [read_comment_fst r]; simp
  rw [if_neg h24]
  exact ⟨List.suffix_refl r, by simp⟩

theorem next_kind_sfx (l : List Char) : (next_kind l).2 <:+ l := by
  match l with
  | [] => simp [next_kind]
  | c :: r =>
    exact ((next_kind_cons_spec c r).1).trans (List.suffix_cons c r)

theorem kwLookup_mem (s : List Char) (t : List (List Char × TokenKind)) :
    kwLookup s t = .Identifier ∨ ∃ p ∈ t, kwLookup s t = p.2 := by
  induction t with
  | nil => exact Or.inl rfl
  | cons hd tl ih =>
    simp only [kwLookup]
    split
    · exact Or.inr ⟨hd, by simp⟩
    · rcases ih with h | ⟨p, hp, he⟩
      · exact Or.inl h
      · exact Or.inr ⟨p, by simp [hp], he⟩

theorem match_keyword_ne_eof (s : List Char) : match_keyword s ≠ .Eof := by
  unfold match_keyword
  split
  · simp
  · rcases kwLookup_mem s keywordTable with h | ⟨p, hp, he⟩
    · simp [h]
    · rw [he]
      have : ∀ q ∈ keywordTable, q.2 ≠ TokenKind.Eof := by decide
      exact this p hp

theorem adjust_token_ne_eof (k : TokenKind) (hk : k ≠ .Eof) (s : List Char)
    (a b : Nat) : (adjust_token k s a b).1 ≠ .Eof := by
  cases k with
  | Eof => exact absurd rfl hk
  | Identifier =>
    have hmk := match_keyword_ne_eof s
    simp only [adjust_token]
    cases h : match_keyword s <;> simp_all
  | _ => simp [adjust_token]

/-- A non-`Eof` step of `next_token` consumes at least one character. -/
theorem next_token_progress (n : Nat) (l : List Char)
    (h : (next_token n l).token.kind ≠ .Eof) :
    (next_token n l).rest.length < l.length := by
  simp only [next_token] at *
  cases hrem : skip_trivia l with
  | nil =>
    rw [hrem] at h
    simp [next_kind, adjust_token] at h
  | cons c r =>
    have h1 : (next_kind (c :: r)).2.length ≤ r.length :=
      ((next_kind_cons_spec c r).1).length_le
    have h2 : (skip_trivia l).length ≤ l.length :=
      (List.dropWhile_suffix isTrivia).length_le
    rw [hrem] at h2
    simp only [List.length_cons] at h2
    omega

/-- `Lexer::tokenize`: repeatedly call `next_token`, stopping before the
`Eof` token. -/
def tokenize (srcLen : Nat) (chars : List Char) : List Token :=
  let r := next_token srcLen chars
  if h : r.token.kind = TokenKind.Eof then []
  else r.token :: tokenize srcLen r.rest
termination_by chars.length
decreasing_by
  exact next_token_progress srcLen chars h

/-- Fuel-indexed unfolding of `tokenize`, used to evaluate it on concrete
inputs (the well-founded recursion of `tokenize` itself does not reduce
definitionally). -/
def tokenizeF : Nat → Nat → List Char → List Token
  | 0, _, _ => []
  | f + 1, n, chars =>
    let r := next_token n chars
    if r.token.kind = TokenKind.Eof then []
    else r.token :: tokenizeF f n r.rest

/-- Any fuel larger than the character count makes `tokenizeF` agree with
`tokenize`. -/
theorem tokenizeF_eq (f : Nat) (n : Nat) (l : List Char)
    (h : l.length < f) : tokenizeF f n l = tokenize n l := by
  induction f generalizing l with
  | zero => omega
  | succ f ih =>
    rw [tokenize]
    simp only [tokenizeF]
    split_ifs with hk
    · rfl
    · have hp := next_token_progress n l hk
      rw [ih _ (by omega)]

theorem next_token_rest_sfx (n : Nat) (l : List Char) :
    (next_token n l).rest <:+ l := by
  simp only [next_token]
  exact (next_kind_sfx (skip_trivia l)).trans (List.dropWhile_suffix isTrivia)

/-- Span facts for a single `next_token` step. -/
theorem next_token_span (n : Nat) (l : List Char) (hb : byteLen l ≤ n) :
    (next_token n l).token.start ≤ (next_token n l).token.endPos ∧
    (next_token n l).token.endPos ≤ n := by
  simp only [next_token]
  have h1 : byteLen (next_kind (skip_trivia l)).2 ≤ byteLen (skip_trivia l) :=
    byteLen_le_of_sfx (next_kind_sfx (skip_trivia l))
  have h2 : byteLen (skip_trivia l) ≤ byteLen l :=
    byteLen_le_of_sfx (List.dropWhile_suffix isTrivia)
  constructor
  · exact Nat.sub_le_sub_left h1 n
  · exact Nat.sub_le n _

theorem tokenize_spans_aux :
    ∀ (f n : Nat) (l : List Char), l.length < f → byteLen l ≤ n →
      ∀ t ∈ tokenize n l, t.start ≤ t.endPos ∧ t.endPos ≤ n := by
  intro f
  induction f with
  | zero => intro n l hf; omega
  | succ f ih =>
    intro n l hf hb t ht
    rw [tokenize] at ht
    by_cases hk : (next_token n l).token.kind = TokenKind.Eof
    · simp [hk] at ht
    · simp only [dif_neg hk, List.mem_cons] at ht
      rcases ht with rfl | ht
      · exact next_token_span n l hb
      · have hp := next_token_progress n l hk
        have hbs : byteLen (next_token n l).rest ≤ n :=
          (byteLen_le_of_sfx (next_token_rest_sfx n l)).trans hb
        exact ih n (next_token n l).rest (by omega) hbs t ht

/-- The scanned body of a string literal that reaches end of input without a
closing occurrence of the opening quote, with a backslash skipping exactly
the next character (the condition under which `read_string` reports
`Unexpected`; stated structurally, following the spec's wording). -/
inductive UnterminatedFrom (q : Char) : List Char → Prop where
  | nil : UnterminatedFrom q []
  | esc (r : List Char) : UnterminatedFrom q r.tail →
      UnterminatedFrom q ('\\' :: r)
  | other (c : Char) (r : List Char) : c ≠ q → c ≠ '\\' →
      UnterminatedFrom q r → UnterminatedFrom q (c :: r)

theorem read_string_unterminated (q : Char) (hq : q ≠ '\\') (l : List Char)
    (h : UnterminatedFrom q l) : read_string q l = (.Unexpected, []) := by
  induction h with
  | nil => simp [read_string]
  | esc r _ ihr =>
    rw [read_string]
    rw [if_neg (fun hc => hq hc.symm), if_pos rfl]
    cases r with
    | nil => simp [read_string_escape]
    | cons d r2 =>
      rw [read_string_escape]
      simpa using ihr
  | other c r hcq hcb _ ihr =>
    rw [read_string]
    rw [if_neg hcq, if_neg hcb]
    exact ihr

/-- Characters that start a recognized lexeme class in `next_kind` (every
dispatch arm other than the `Unexpected` fallthrough). -/
def starts_lexeme (c : Char) : Bool :=
  c = '+' || c = '-' || c = '*' || c = '/' || c = '^' || c = '%' ||
  c = '<' || c = '>' || c = '!' || c = '(' || c = ')' || c = '{' ||
  c = '}' || c = '[' || c = ']' || c = ';' || c = ',' || c = ':' ||
  c = '.' || c = '=' || isDigitChar c || isIdentStart c ||
  c = '"' || c = squote || c = backquote || c = '#'

theorem next_kind_quote (q : Char)
    (hq : q = '"' ∨ q = squote ∨ q = backquote) (r : List Char) :
    next_kind (q :: r) = read_string q r := by
  rcases hq with rfl | rfl | rfl <;>
  · rw [next_kind]
    repeat rw [if_neg (by decide)]
    rw [if_pos (by decide)]

theorem next_kind_unrecognized (c : Char) (r : List Char)
    (h : starts_lexeme c = false) : next_kind (c :: r) = (.Unexpected, r) := by
  simp only [starts_lexeme, Bool.or_eq_false_iff, decide_eq_false_iff_not]
    at h
  obtain ⟨⟨⟨⟨⟨⟨⟨⟨⟨⟨⟨⟨⟨⟨⟨⟨⟨⟨⟨⟨⟨⟨⟨⟨⟨h1, h2⟩, h3⟩, h4⟩, h5⟩, h6⟩, h7⟩, h8⟩,
    h9⟩, h10⟩, h11⟩, h12⟩, h13⟩, h14⟩, h15⟩, h16⟩, h17⟩, h18⟩, h19⟩, h20⟩,
    hd⟩, hi⟩, hq1⟩, hq2⟩, hq3⟩, hh⟩ := h
  rw [next_kind]
  rw [if_neg h1, if_neg h2, if_neg h3, if_neg h4, if_neg h5, if_neg h6,
    if_neg h7, if_neg h8, if_neg h9, if_neg h10, if_neg h11, if_neg h12,
    if_neg h13, if_neg h14, if_neg h15, if_neg h16, if_neg h17, if_neg h18,
    if_neg h19, if_neg h20]
  rw [if_neg (by simp [hd]), if_neg (by simp [hi]),
    if_neg (by simp [hq1, hq2, hq3]), if_neg hh]

/-- Whenever `next_kind` reports `Unexpected`, `next_token` returns a token
of that kind and issues the report for the token's span. -/
theorem next_token_unexpected (srcLen : Nat) (input : List Char)
    (hfst : (next_kind (skip_trivia input)).1 = .Unexpected) :
    (next_token srcLen input).token.kind = .Unexpected ∧
    (next_token srcLen input).report =
      some ⟨"Unexpected token", (next_token srcLen input).token.start,
        (next_token srcLen input).token.endPos⟩ := by
  simp only [next_token]
  rw [hfst]
  simp [adjust_token]

/-- C2 (code behaviour at the failing input): `peek_two` returns the first
remaining character, so number scanning never continues past `.`, and
`"3.14"` lexes as the two tokens `Number("3")`, `Number(".14")`;
`"3..4"` still lexes as `Number("3")`, `Range`, `Number("4")`. -/
theorem c2_number_lexing_eval :
    peek_two ('.' :: '1' :: '4' :: []) = some '.' ∧
    tokenize (byteLen "3.14".data) "3.14".data =
      [⟨.Number, 0, 1, .Number "3".data⟩,
       ⟨.Number, 1, 4, .Number ".14".data⟩] ∧
    tokenize (byteLen "3..4".data) "3..4".data =
      [⟨.Number, 0, 1, .Number "3".data⟩, ⟨.Range, 1, 3, .None⟩,
       ⟨.Number, 3, 4, .Number "4".data⟩] := by
  refine ⟨rfl, ?_, ?_⟩
  · rw [← tokenizeF_eq 5 _ _ (by decide)]
    decide
  · rw [← tokenizeF_eq 5 _ _ (by decide)]
    decide

/-- C7: an unterminated string (opened by one of the three quote
characters, with backslash skipping exactly the next character, reaching
end of input without the closing quote) and an input whose next non-trivia
character starts no recognized lexeme class both make `next_token` return
an `Unexpected` token and issue an immediate report for that token's
span. -/
theorem c7_lexical_failure (srcLen : Nat) (input : List Char)
    (h : (∃ q rest, skip_trivia input = q :: rest ∧
            (q = '"' ∨ q = squote ∨ q = backquote) ∧
            UnterminatedFrom q rest) ∨
         (∃ c rest, skip_trivia input = c :: rest ∧
            starts_lexeme c = false)) :
    (next_token srcLen input).token.kind = .Unexpected ∧
    (next_token srcLen input).report =
      some ⟨"Unexpected token", (next_token srcLen input).token.start,
        (next_token srcLen input).token.endPos⟩ := by
  rcases h with ⟨q, rest, hsk, hq, hu⟩ | ⟨c, rest, hsk, hs⟩
  · apply next_token_unexpected
    rw [hsk, next_kind_quote q hq rest, read_string_unterminated q
      (by rcases hq with rfl | rfl | rfl <;> decide) rest hu]
  · apply next_token_unexpected
    rw [hsk, next_kind_unrecognized c rest hs]

/-- Witness for C7 at the concrete unterminated string with the source text
of a double quote followed by the two characters `ab`. -/
theorem c7_lexical_failure_witness :
    (next_token 3 ('"' :: 'a' :: 'b' :: [])).token.kind = .Unexpected ∧
    (next_token 3 ('"' :: 'a' :: 'b' :: [])).report =
      some ⟨"Unexpected token", 0, 3⟩ := by
  have hu : UnterminatedFrom '"' ('a' :: 'b' :: []) :=
    .other 'a' _ (by decide) (by decide)
      (.other 'b' _ (by decide) (by decide) .nil)
  have h := c7_lexical_failure 3 ('"' :: 'a' :: 'b' :: [])
    (Or.inl ⟨'"', 'a' :: 'b' :: [], by decide, Or.inl rfl, hu⟩)
  refine ⟨h.1, ?_⟩
  rw [h.2]
  decide

/-- C8: token spans satisfy `start <= end <= srcLen` for every token
returned by `next_token` on a suffix of the source, and hence for every
token in `tokenize`'s output. -/
theorem c8_token_spans :
    (∀ (srcLen : Nat) (chars : List Char), byteLen chars ≤ srcLen →
      (next_token srcLen chars).token.start ≤
        (next_token srcLen chars).token.endPos ∧
      (next_token srcLen chars).token.endPos ≤ srcLen) ∧
    (∀ src : List Char, ∀ t ∈ tokenize (byteLen src) src,
      t.start ≤ t.endPos ∧ t.endPos ≤ byteLen src) :=
  ⟨next_token_span, fun src t ht =>
    tokenize_spans_aux (src.length + 1) (byteLen src) src
      (by omega) (Nat.le_refl _) t ht⟩

/-- Witness for C8 at the concrete source text `3.14`. -/
theorem c8_token_spans_witness :
    ((next_token 4 "3.14".data).token.start ≤
        (next_token 4 "3.14".data).token.endPos ∧
      (next_token 4 "3.14".data).token.endPos ≤ 4) ∧
    ((⟨.Number, 1, 4, .Number ".14".data⟩ : Token).start ≤
        (⟨.Number, 1, 4, .Number ".14".data⟩ : Token).endPos ∧
      (⟨.Number, 1, 4, .Number ".14".data⟩ : Token).endPos ≤
        byteLen "3.14".data) :=
  ⟨c8_token_spans.1 4 "3.14".data (by decide),
   c8_token_spans.2 "3.14".data ⟨.Number, 1, 4, .Number ".14".data⟩
     (by rw [← tokenizeF_eq 5 _ _ (by decide)]; decide)⟩

/-!
Parser embedding (`src/parser/src/parser/mod.rs`).  The AST node types of
the `symboscript_types::parser` module are not vendored under `src/`, so
their shapes are modelled from the spec (section 3) and from the parser's
own constructor calls.  The parser is embedded over the token list produced
by the lexer (the Rust parser pulls tokens one at a time, which on a fixed
source is the same sequence), with an explicit fuel parameter standing for
the unbounded recursion of the Rust call stack; `PErr.fuel` is an artifact
of the embedding and is never produced when enough fuel is supplied.
-/

/-- Binary/unary operator tags, from the targets of `Parser::kind_to_op`. -/
inductive Operator where
  | Plus | Minus | Multiply | Divide | Power | Range | Modulo
  | And | Or | Xor
  | BitAnd | BitOr | BitXor | BitLeftShift | BitRightShift
  | Assign | FormulaAssign | PlusAssign | MinusAssign | MultiplyAssign
  | DivideAssign | PowerAssign | ModuloAssign
  | Equal | NotEqual | Less | LessEqual | Greater | GreaterEqual
deriving DecidableEq

/-- Span node carried by every AST vertex (`Node { start, end }`). -/
structure Node where
  start : Nat
  endPos : Nat
deriving DecidableEq

/-- Modelled from the spec: `Expression` tagged variants (section 3), with
payload shapes read off the parser's builder calls. -/
inductive Expression where
  | Literal (t : Token)
  | Identifier (t : Token)
  | BinaryExpression (node : Node) (left : Expression) (operator : Operator)
      (right : Expression)
  | UnaryExpression (node : Node) (operator : Operator) (right : Expression)
  | ConditionalExpression (node : Node) (test consequent alternate : Expression)
  | CallExpression (node : Node) (callee arguments : Expression)
  | MemberExpression (node : Node) (object property : Expression)
      (is_expr : Bool)
  | SequenceExpression (node : Node) (expressions : List Expression)
  | WordExpression (node : Node) (kind : TokenKind) (right : Expression)
  | None

/-- Modelled from the spec: the `Statement` variants exercised by the
claims (expression statement and variable declaration); the remaining
statement forms of section 3 are outside every claim's scope and their
parsing arms are marked `PErr.unmodeled` below. -/
inductive Statement where
  | ExpressionStatement (e : Expression)
  | VariableDeclaration (node : Node) (id : Token) (init : Expression)
      (is_formula : Bool)

/-- Parser failure: a reported diagnostic (`report_error` terminates the
Rust process), an unmodeled statement form, or fuel exhaustion (an artifact
of the embedding only). -/
inductive PErr where
  | diag (d : Diag)
  | unmodeled
  | fuel
deriving DecidableEq

/-- The `Eof` token the lexer keeps returning at end of input. -/
def mkEof (srcLen : Nat) : Token := ⟨.Eof, srcLen, srcLen, .None⟩

/-- Token sequence the parser consumes for a source text: the `tokenize`
output followed by the terminal `Eof` token. -/
def lexAll (src : List Char) : List Token :=
  tokenize (byteLen src) src ++ [mkEof (byteLen src)]

/-- Current token (`self.cur_token`). -/
def curT (st : List Token) : Token := st.head?.getD ⟨.Eof, 0, 0, .None⟩

/-- `Parser::cur_kind`. -/
def curKind (st : List Token) : TokenKind := (curT st).kind

/-- `Parser::advance`: move to the next token; at the end of the stream the
lexer keeps producing the final `Eof` token. -/
def advT (st : List Token) : List Token := if st.tail = [] then st else st.tail

/-- Display strings for the kinds that postdate the vendored types crate
(their `Display` impl is not in the tree; the claims never print them). -/
def kindDisplayExtra : TokenKind → String
  | .Scope => "scope"
  | .Async => "async"
  | .Try => "try"
  | .Catch => "catch"
  | .Finally => "finally"
  | .Throw => "throw"
  | .Yield => "yield"
  | .Block => "block"
  | .Await => "await"
  | .Delete => "delete"
  | .New => "new"
  | _ => ""

/-- Display strings of `TokenKind` (the `fmt::Display` impl in
`src/types/src/lexer.rs`). -/
def kindDisplay : TokenKind → String
  | .Eof => "EOF"
  | .Comment => "Comment"
  | .Unexpected => "Unexpected"
  | .Start => "Start"
  | .Semicolon => ";"
  | .Comma => ","
  | .Colon => ":"
  | .Dot => "."
  | .Plus => "+"
  | .Minus => "-"
  | .Multiply => "*"
  | .Divide => "/"
  | .Power => "^"
  | .Range => ".."
  | .Modulo => "%"
  | .BitAnd => "&"
  | .BitOr => "|"
  | .BitNot => "~"
  | .BitXor => "^"
  | .BitLeftShift => "<<"
  | .BitRightShift => ">>"
  | .PlusPlus => "++"
  | .MinusMinus => "--"
  | .Question => "?"
  | .And => "&& or and"
  | .Or => "|| or or"
  | .Xor => "xor"
  | .Not => "! or not"
  | .Assign => "="
  | .FormulaAssign => ":="
  | .PlusAssign => "+="
  | .MinusAssign => "-="
  | .MultiplyAssign => "*="
  | .DivideAssign => "/="
  | .PowerAssign => "^="
  | .ModuloAssign => "%="
  | .Equal => "=="
  | .NotEqual => "!="
  | .Less => "<"
  | .LessEqual => "<="
  | .Greater => ">"
  | .GreaterEqual => ">="
  | .LParen => "("
  | .RParen => ")"
  | .LBrace => "\x7b"
  | .RBrace => "\x7d"
  | .LBracket => "["
  | .RBracket => "]"
  | .Identifier => "Identifier"
  | .Number => "Number"
  | .Str => "String"
  | .True => "true"
  | .False => "false"
  | .If => "if"
  | .Else => "else"
  | .While => "while"
  | .For => "for"
  | .Loop => "loop"
  | .Let => "let"
  | .Return => "return"
  | .Break => "break"
  | .Continue => "continue"
  | .Function => "function"
  | .In => "in"
  | k => kindDisplayExtra k

/-- Display of `TokenValue` (`fmt::Display`); the `Number` case prints an
`f64` in Rust, which the embedding renders as the recorded decimal text
(no settled claim depends on float formatting). -/
def valueDisplay : TokenValue → String
  | .None => ""
  | .Number t => String.mk t
  | .Str t => String.mk t

/-- `Parser::report_expected`: the message is
`"Expected <expected> but got <got>"`, the span runs from `start` to the
current token's end. -/
def report_expected (st : List Token) (start : Nat)
    (expected got : String) : PErr :=
  .diag ⟨"Expected " ++ expected ++ " but got " ++ got, start,
    (curT st).endPos⟩

/-- `Parser::eat_with_start`: consume the expected kind or report, anchored
at `start`, naming the expected kind and the actual token (with its decoded
text when present, joined by a space as in the Rust `format!`). -/
def eat_with_start (k : TokenKind) (start : Nat) (st : List Token) :
    Except PErr (Unit × List Token) :=
  if curKind st = k then .ok ((), advT st)
  else
    .error (report_expected st start (kindDisplay k)
      (kindDisplay (curKind st) ++ " " ++
        (if (curT st).value = .None then "" else valueDisplay (curT st).value)))

/-- `Parser::eat`: `eat_with_start` anchored at the current token. -/
def eat (k : TokenKind) (st : List Token) : Except PErr (Unit × List Token) :=
  eat_with_start k (curT st).start st

/-- `Parser::kind_to_op`.  The Rust wildcard arm is `unreachable!()`; the
embedding maps it to `Operator.Plus`, and no claim exercises it. -/
def kind_to_op : TokenKind → Operator
  | .Plus => .Plus
  | .Minus => .Minus
  | .Multiply => .Multiply
  | .Divide => .Divide
  | .Power => .Power
  | .Range => .Range
  | .Modulo => .Modulo
  | .And => .And
  | .Or => .Or
  | .Xor => .Xor
  | .BitAnd => .BitAnd
  | .BitOr => .BitOr
  | .BitXor => .BitXor
  | .BitLeftShift => .BitLeftShift
  | .BitRightShift => .BitRightShift
  | .Assign => .Assign
  | .FormulaAssign => .FormulaAssign
  | .PlusAssign => .PlusAssign
  | .MinusAssign => .MinusAssign
  | .MultiplyAssign => .MultiplyAssign
  | .DivideAssign => .DivideAssign
  | .PowerAssign => .PowerAssign
  | .ModuloAssign => .ModuloAssign
  | .Equal => .Equal
  | .NotEqual => .NotEqual
  | .Less => .Less
  | .LessEqual => .LessEqual
  | .Greater => .Greater
  | .GreaterEqual => .GreaterEqual
  | _ => .Plus

/-- `Parser::binary_expression`: node spans from `start` to the current
token's end at build time. -/
def binary_expression (start : Nat) (st : List Token) (left right : Expression)
    (operator : TokenKind) : Expression :=
  .BinaryExpression ⟨start, (curT st).endPos⟩ left (kind_to_op operator) right

/-- `Parser::unary_expression`. -/
def unary_expression (start : Nat) (st : List Token) (operator : TokenKind)
    (right : Expression) : Expression :=
  .UnaryExpression ⟨start, (curT st).endPos⟩ (kind_to_op operator) right

/-- `Parser::conditional_expression`. -/
def conditional_expression (start : Nat) (st : List Token)
    (test consequent alternate : Expression) : Expression :=
  .ConditionalExpression ⟨start, (curT st).endPos⟩ test consequent alternate

/-- `Parser::call_expression`. -/
def call_expression (start : Nat) (st : List Token)
    (callee arguments : Expression) : Expression :=
  .CallExpression ⟨start, (curT st).endPos⟩ callee arguments

/-- `Parser::sequence_expression`. -/
def sequence_expression (start : Nat) (st : List Token)
    (expressions : List Expression) : Expression :=
  .SequenceExpression ⟨start, (curT st).endPos⟩ expressions

/-- Loop of the `parser!` macro's left-associative arm
(`src/parser/src/parser/macro_utils.rs` lines 4-16): while the current
token is one of `kinds`, eat it, parse the next operand with `sub` and fold
into a binary node anchored at `start`. -/
def parser_loop (kinds : List TokenKind)
    (sub : List Token → Except PErr (Expression × List Token)) :
    Nat → Nat → Expression → List Token → Except PErr (Expression × List Token)
  | 0, _, _, _ => .error .fuel
  | f + 1, start, node, st =>
    if kinds.contains (curKind st) then do
      let current_token := curT st
      let (_, st1) ← eat current_token.kind st
      let (right, st2) ← sub st1
      parser_loop kinds sub f start
        (binary_expression start st2 node right current_token.kind) st2
    else .ok (node, st)

/-- The `parser!` macro's left-associative arm (named
`binary_left_associative!` at its use sites in the parser). -/
def binary_left_associative (kinds : List TokenKind)
    (sub : List Token → Except PErr (Expression × List Token)) (f : Nat) (st : List Token) :
    Except PErr (Expression × List Token) := do
  let start := (curT st).start
  let (node, st1) ← sub st
  parser_loop kinds sub f start node st1

/-- Modelled from the spec: the `binary_right_associative!` helper used by
`assign` (right-associative: parse one `sub` operand; on an operator of
`kinds`, eat it and recurse through `self` for the right-hand side). -/
def binary_right_associative (kinds : List TokenKind)
    (sub self : List Token → Except PErr (Expression × List Token)) (st : List Token) :
    Except PErr (Expression × List Token) := do
  let start := (curT st).start
  let (node, st1) ← sub st
  if kinds.contains (curKind st1) then
    let op := curKind st1
    let (_, st2) ← eat op st1
    let (right, st3) ← self st2
    .ok (binary_expression start st3 node right op, st3)
  else .ok (node, st1)

set_option maxHeartbeats 3200000 in
mutual

/-- `Parser::expr`: the full expression entry point. -/
def expr : Nat → List Token → Except PErr (Expression × List Token)
  | 0, _ => .error .fuel
  | f + 1, st => comma f false st
termination_by structural f => f

/-- `Parser::comma`. -/
def comma : Nat → Bool → List Token → Except PErr (Expression × List Token)
  | 0, _, _ => .error .fuel
  | f + 1, only_sequence, st => do
    let start := (curT st).start
    let (first, st1) ← assign f st
    let (nodes, st2) ← comma_loop f [first] st1
    match only_sequence, nodes with
    | false, [e] => .ok (e, st2)
    | _, ns => .ok (sequence_expression start st2 ns, st2)
termination_by structural f => f

/-- While-`Comma` loop of `Parser::comma`. -/
def comma_loop : Nat → List Expression → List Token →
    Except PErr (List Expression × List Token)
  | 0, _, _ => .error .fuel
  | f + 1, acc, st =>
    if curKind st = .Comma then do
      let st1 := advT st
      let (e, st2) ← assign f st1
      comma_loop f (acc ++ [e]) st2
    else .ok (acc, st)
termination_by structural f => f

/-- `Parser::assign` (right-associative assignments). -/
def assign : Nat → List Token → Except PErr (Expression × List Token)
  | 0, _ => .error .fuel
  | f + 1, st =>
    binary_right_associative
      [.Assign, .FormulaAssign, .PlusAssign, .MinusAssign, .MultiplyAssign,
       .DivideAssign, .PowerAssign, .ModuloAssign]
      (ternary f) (assign f) st
termination_by structural f => f

/-- `Parser::ternary`. -/
def ternary : Nat → List Token → Except PErr (Expression × List Token)
  | 0, _ => .error .fuel
  | f + 1, st => do
    let start := (curT st).start
    let (node, st1) ← range f st
    ternary_loop f start node st1
termination_by structural f => f

/-- While-`Question` loop of `Parser::ternary`. -/
def ternary_loop : Nat → Nat → Expression → List Token → Except PErr (Expression × List Token)
  | 0, _, _, _ => .error .fuel
  | f + 1, start, node, st =>
    if curKind st = .Question then do
      let st1 := advT st
      let (consequent, st2) ← range f st1
      let (_, st3) ← eat .Colon st2
      let (alternate, st4) ← expr f st3
      ternary_loop f start
        (conditional_expression start st4 node consequent alternate) st4
    else .ok (node, st)
termination_by structural f => f

/-- `Parser::range`. -/
def range : Nat → List Token → Except PErr (Expression × List Token)
  | 0, _ => .error .fuel
  | f + 1, st => binary_left_associative [.Range] (logical_or f) f st
termination_by structural f => f

/-- `Parser::logical_or`. -/
def logical_or : Nat → List Token → Except PErr (Expression × List Token)
  | 0, _ => .error .fuel
  | f + 1, st => binary_left_associative [.Or] (logical_and f) f st
termination_by structural f => f

/-- `Parser::logical_and`. -/
def logical_and : Nat → List Token → Except PErr (Expression × List Token)
  | 0, _ => .error .fuel
  | f + 1, st => binary_left_associative [.And] (cmp f) f st
termination_by structural f => f

/-- `Parser::cmp`. -/
def cmp : Nat → List Token → Except PErr (Expression × List Token)
  | 0, _ => .error .fuel
  | f + 1, st =>
    binary_left_associative
      [.Less, .LessEqual, .Greater, .GreaterEqual, .Equal, .NotEqual]
      (bit_or f) f st
termination_by structural f => f

/-- `Parser::bit_or`. -/
def bit_or : Nat → List Token → Except PErr (Expression × List Token)
  | 0, _ => .error .fuel
  | f + 1, st => binary_left_associative [.BitOr] (bit_xor f) f st
termination_by structural f => f

/-- `Parser::bit_xor`. -/
def bit_xor : Nat → List Token → Except PErr (Expression × List Token)
  | 0, _ => .error .fuel
  | f + 1, st => binary_left_associative [.BitXor] (bit_and f) f st
termination_by structural f => f

/-- `Parser::bit_and`. -/
def bit_and : Nat → List Token → Except PErr (Expression × List Token)
  | 0, _ => .error .fuel
  | f + 1, st => binary_left_associative [.BitAnd] (shift f) f st
termination_by structural f => f

/-- `Parser::shift`. -/
def shift : Nat → List Token → Except PErr (Expression × List Token)
  | 0, _ => .error .fuel
  | f + 1, st =>
    binary_left_associative [.BitRightShift, .BitLeftShift] (add_sub f) f st
termination_by structural f => f

/-- `Parser::add_sub`. -/
def add_sub : Nat → List Token → Except PErr (Expression × List Token)
  | 0, _ => .error .fuel
  | f + 1, st => binary_left_associative [.Plus, .Minus] (term f) f st
termination_by structural f => f

/-- `Parser::term` (lines 523-545): one `power` operand, then the implicit
multiplication loop (juxtaposition with an `Identifier`, `(` or `Number`
token), then the explicit `* / %` loop. -/
def term : Nat → List Token → Except PErr (Expression × List Token)
  | 0, _ => .error .fuel
  | f + 1, st => do
    let start := (curT st).start
    let (e, st1) ← power f st
    let (e2, st2) ← term_juxta f start e st1
    term_explicit f start e2 st2
termination_by structural f => f

/-- First while-loop of `Parser::term`: implicit multiplication by
juxtaposition. -/
def term_juxta : Nat → Nat → Expression → List Token → Except PErr (Expression × List Token)
  | 0, _, _, _ => .error .fuel
  | f + 1, start, e, st =>
    if [TokenKind.Identifier, TokenKind.LParen, TokenKind.Number].contains
        (curKind st) then do
      let (right, st1) ← power f st
      term_juxta f start (binary_expression start st1 e right .Multiply) st1
    else .ok (e, st)
termination_by structural f => f

/-- Second while-loop of `Parser::term`: explicit `* / %` operators. -/
def term_explicit : Nat → Nat → Expression → List Token → Except PErr (Expression × List Token)
  | 0, _, _, _ => .error .fuel
  | f + 1, start, e, st =>
    if [TokenKind.Multiply, TokenKind.Divide, TokenKind.Modulo].contains
        (curKind st) then do
      let operator := curKind st
      let st1 := advT st
      let (right, st2) ← power f st1
      term_explicit f start (binary_expression start st2 e right operator) st2
    else .ok (e, st)
termination_by structural f => f

/-- `Parser::power` (left-associative, `parser!` macro). -/
def power : Nat → List Token → Except PErr (Expression × List Token)
  | 0, _ => .error .fuel
  | f + 1, st => binary_left_associative [.Power] (factor f) f st
termination_by structural f => f

/-- `Parser::factor`. -/
def factor : Nat → List Token → Except PErr (Expression × List Token)
  | 0, _ => .error .fuel
  | f + 1, st =>
    let token := curT st
    match token.kind with
    | .Number | .Str | .True | .False => .ok (.Literal token, advT st)
    | .LParen => do
      let st1 := advT st
      let (node, st2) ← expr f st1
      let (_, st3) ← eat_with_start .RParen token.start st2
      .ok (node, st3)
    | .LBracket => read_seq_expr f token st
    | .Not | .PlusPlus | .MinusMinus | .BitNot | .Minus | .Plus => do
      let st1 := advT st
      let (right, st2) ← factor f st1
      .ok (unary_expression token.start st2 token.kind right, st2)
    | _ => await_expr f st
termination_by structural f => f

/-- `Parser::read_seq_expr` (bracketed sequence literal). -/
def read_seq_expr : Nat → Token → List Token → Except PErr (Expression × List Token)
  | 0, _, _ => .error .fuel
  | f + 1, token, st => do
    let st1 := advT st
    match curKind st1 with
    | .RBracket =>
      .ok (sequence_expression token.start (advT st1) [], advT st1)
    | _ => do
      let (node, st2) ← comma f true st1
      let (_, st3) ← eat_with_start .RBracket token.start st2
      match node with
      | .SequenceExpression _ exprs =>
        .ok (sequence_expression token.start st3 exprs, st3)
      | other => .ok (sequence_expression token.start st3 [other], st3)
termination_by structural f => f

/-- Modelled from the spec: `word_right_associative_expr!` for `await`
(prefix keyword, right-associative through self-recursion). -/
def await_expr : Nat → List Token → Except PErr (Expression × List Token)
  | 0, _ => .error .fuel
  | f + 1, st =>
    if curKind st = .Await then do
      let start := (curT st).start
      let st1 := advT st
      let (right, st2) ← await_expr f st1
      .ok (.WordExpression ⟨start, (curT st2).endPos⟩ .Await right, st2)
    else delete_expr f st
termination_by structural f => f

/-- Modelled from the spec: `word_right_associative_expr!` for `delete`. -/
def delete_expr : Nat → List Token → Except PErr (Expression × List Token)
  | 0, _ => .error .fuel
  | f + 1, st =>
    if curKind st = .Delete then do
      let start := (curT st).start
      let st1 := advT st
      let (right, st2) ← delete_expr f st1
      .ok (.WordExpression ⟨start, (curT st2).endPos⟩ .Delete right, st2)
    else new_expr f st
termination_by structural f => f

/-- Modelled from the spec: `word_right_associative_expr!` for `new`. -/
def new_expr : Nat → List Token → Except PErr (Expression × List Token)
  | 0, _ => .error .fuel
  | f + 1, st =>
    if curKind st = .New then do
      let start := (curT st).start
      let st1 := advT st
      let (right, st2) ← new_expr f st1
      .ok (.WordExpression ⟨start, (curT st2).endPos⟩ .New right, st2)
    else dot f st
termination_by structural f => f

/-- Modelled from the spec: `member_left_associative!` over `call` (member
access `a.b`, left-associative). -/
def dot : Nat → List Token → Except PErr (Expression × List Token)
  | 0, _ => .error .fuel
  | f + 1, st => do
    let start := (curT st).start
    let (eb, st1) ← call f st
    dot_loop f start eb.1 st1
termination_by structural f => f

/-- While-`Dot` loop of the member-access chain (modelled from the spec). -/
def dot_loop : Nat → Nat → Expression → List Token → Except PErr (Expression × List Token)
  | 0, _, _, _ => .error .fuel
  | f + 1, start, obj, st =>
    if curKind st = .Dot then do
      let st1 := advT st
      let (pb, st2) ← call f st1
      dot_loop f start
        (.MemberExpression ⟨start, (curT st2).endPos⟩ obj pb.1 pb.2) st2
    else .ok (obj, st)
termination_by structural f => f

/-- `Parser::call` (lines 630-695): an identifier, optionally followed by a
bracketed argument list; a bare `[` grouping; otherwise report
`"Expected Identifier or [ but got <kind>"` anchored at the current token's
start. -/
def call : Nat → List Token → Except PErr ((Expression × Bool) × List Token)
  | 0, _ => .error .fuel
  | f + 1, st =>
    let token := curT st
    match token.kind with
    | .Identifier =>
      let st1 := advT st
      match curKind st1 with
      | .LBracket =>
        let sequence_start := (curT st1).start
        let st2 := advT st1
        match curKind st2 with
        | .RBracket =>
          let st3 := advT st2
          let node := sequence_expression sequence_start st3 []
          .ok ((call_expression sequence_start st3
            (.Identifier token) node, true), st3)
        | _ => do
          let (node0, st3) ← expr f st2
          let (_, st4) ← eat_with_start .RBracket token.start st3
          let args :=
            match node0 with
            | .SequenceExpression _ exprs =>
              sequence_expression sequence_start st4 exprs
            | other => sequence_expression sequence_start st4 [other]
          .ok ((call_expression token.start st4
            (.Identifier token) args, true), st4)
      | _ => .ok ((.Identifier token, false), st1)
    | .LBracket => do
      let st1 := advT st
      let (node, st2) ← expr f st1
      let (_, st3) ← eat_with_start .RBracket token.start st2
      .ok ((node, true), st3)
    | got => .error (report_expected st token.start "Identifier or ["
        (kindDisplay got))

termination_by structural f => f
end

/-- `Parser::var_decl`: `let <id> [= | := <expr>] ;`.  Inside a `for`
header (`only_with_init = true`) a missing initializer reports
`"Expected Assign or FormulaAssign but got <kind>"`. -/
def var_decl (f : Nat) (only_with_init : Bool) (st : List Token) :
    Except PErr (Statement × List Token) :=
  match f with
  | 0 => .error .fuel
  | f + 1 => do
    let start := (curT st).start
    let st1 := advT st
    let id := curT st1
    let (_, st2) ← eat .Identifier st1
    let init_start := (curT st2).start
    let (init, is_formula, st4) ←
      match curKind st2 with
      | .Assign => do
        let st3 := advT st2
        let (e, st4) ← expr f st3
        (.ok (e, false, st4) : Except PErr (Expression × Bool × List Token))
      | .FormulaAssign => do
        let st3 := advT st2
        let (e, st4) ← expr f st3
        (.ok (e, true, st4) : Except PErr (Expression × Bool × List Token))
      | k =>
        if only_with_init = false then .ok (Expression.None, false, st2)
        else .error (report_expected st2 init_start
          "Assign or FormulaAssign" (kindDisplay k))
    let (_, st5) ← eat .Semicolon st4
    .ok (.VariableDeclaration ⟨start, (curT st5).endPos⟩ id init
      is_formula, st5)

/-- `Parser::expr_stmt`. -/
def expr_stmt (f : Nat) (st : List Token) : Except PErr (Statement × List Token) :=
  match f with
  | 0 => .error .fuel
  | f + 1 => do
    let (e, st1) ← expr f st
    let (_, st2) ← eat .Semicolon st1
    .ok (.ExpressionStatement e, st2)

/-- `Parser::statement` dispatch.  Only the `Let` arm and the
expression-statement fallthrough are exercised by the claims; the other
keyword arms (function, scope, if, loops, try, word statements, blocks) are
outside every claim's scope and mapped to `PErr.unmodeled`. -/
def statement (f : Nat) (st : List Token) : Except PErr (Statement × List Token) :=
  match f with
  | 0 => .error .fuel
  | f + 1 =>
    match curKind st with
    | .Let => var_decl f false st
    | .Function | .Async | .Scope | .If | .For | .While | .Loop
    | .Continue | .Break | .Try | .Throw | .Return | .Yield | .Block
    | .LBrace => .error .unmodeled
    | _ => expr_stmt f st

/-- Span-erased view of an expression tree, used to state claims about
tree structure independently of the node offsets. -/
inductive ExprShape where
  | lit (v : TokenValue)
  | ident (v : TokenValue)
  | bin (op : Operator) (l r : ExprShape)
  | un (op : Operator) (r : ExprShape)
  | cond (t c a : ExprShape)
  | call (c a : ExprShape)
  | member (o p : ExprShape) (b : Bool)
  | seq (es : List ExprShape)
  | word (k : TokenKind) (r : ExprShape)
  | omitted

mutual

/-- Erase spans from an expression tree. -/
def shape : Expression → ExprShape
  | .Literal t => .lit t.value
  | .Identifier t => .ident t.value
  | .BinaryExpression _ l op r => .bin op (shape l) (shape r)
  | .UnaryExpression _ op r => .un op (shape r)
  | .ConditionalExpression _ t c a => .cond (shape t) (shape c) (shape a)
  | .CallExpression _ c a => .call (shape c) (shape a)
  | .MemberExpression _ o p b => .member (shape o) (shape p) b
  | .SequenceExpression _ es => .seq (shapeList es)
  | .WordExpression _ k r => .word k (shape r)
  | .None => .omitted

/-- Erase spans from a list of expressions. -/
def shapeList : List Expression → List ExprShape
  | [] => []
  | e :: es => shape e :: shapeList es

end

mutual

/-- Does the tree contain a binary node with the `Multiply` operator? -/
def containsMultiply : Expression → Bool
  | .BinaryExpression _ l op r =>
    op = .Multiply || containsMultiply l || containsMultiply r
  | .UnaryExpression _ _ r => containsMultiply r
  | .ConditionalExpression _ t c a =>
    containsMultiply t || containsMultiply c || containsMultiply a
  | .CallExpression _ c a => containsMultiply c || containsMultiply a
  | .MemberExpression _ o p _ => containsMultiply o || containsMultiply p
  | .SequenceExpression _ es => containsMultiplyList es
  | .WordExpression _ _ r => containsMultiply r
  | .Literal _ => false
  | .Identifier _ => false
  | .None => false

/-- `containsMultiply` over a list of expressions. -/
def containsMultiplyList : List Expression → Bool
  | [] => false
  | e :: es => containsMultiply e || containsMultiplyList es

end

/-- Shape of the expression produced by parsing a source text as a full
expression (`None` when parsing fails). -/
def parse_expr_shape (f : Nat) (src : List Char) : Option ExprShape :=
  match expr f (lexAll src) with
  | .ok (e, _) => some (shape e)
  | .error _ => none

/-- Shape of the expression of the expression-statement produced by parsing
a source text as a statement. -/
def parse_stmt_shape (f : Nat) (src : List Char) : Option ExprShape :=
  match statement f (lexAll src) with
  | .ok (.ExpressionStatement e, _) => some (shape e)
  | _ => none

theorem lexAll_pow : lexAll "2^3^2".data =
    [⟨.Number, 0, 1, .Number "2".data⟩, ⟨.Power, 1, 2, .None⟩,
     ⟨.Number, 2, 3, .Number "3".data⟩, ⟨.Power, 3, 4, .None⟩,
     ⟨.Number, 4, 5, .Number "2".data⟩, mkEof 5] := by
  unfold lexAll
  rw [← tokenizeF_eq 6 _ _ (by decide)]
  decide

theorem lexAll_letx : lexAll "let x = ;".data =
    [⟨.Let, 0, 3, .Str "let".data⟩, ⟨.Identifier, 4, 5, .Str "x".data⟩,
     ⟨.Assign, 6, 7, .None⟩, ⟨.Semicolon, 8, 9, .None⟩, mkEof 9] := by
  unfold lexAll
  rw [← tokenizeF_eq 10 _ _ (by decide)]
  decide

theorem lexAll_2x : lexAll "2x;".data =
    [⟨.Number, 0, 1, .Number "2".data⟩, ⟨.Identifier, 1, 2, .Str "x".data⟩,
     ⟨.Semicolon, 2, 3, .None⟩, mkEof 3] := by
  unfold lexAll
  rw [← tokenizeF_eq 4 _ _ (by decide)]
  decide

theorem lexAll_2px : lexAll "2(x);".data =
    [⟨.Number, 0, 1, .Number "2".data⟩, ⟨.LParen, 1, 2, .None⟩,
     ⟨.Identifier, 2, 3, .Str "x".data⟩, ⟨.RParen, 3, 4, .None⟩,
     ⟨.Semicolon, 4, 5, .None⟩, mkEof 5] := by
  unfold lexAll
  rw [← tokenizeF_eq 6 _ _ (by decide)]
  decide

/-- C3 (amended): `2^3^2` parses LEFT-nested, `Power(Power(2,3),2)`, per
the left-associative `parser!` loop used by `power`. -/
theorem c3_power_left_nested :
    parse_expr_shape 50 "2^3^2".data =
      some (.bin .Power
        (.bin .Power (.lit (.Number "2".data)) (.lit (.Number "3".data)))
        (.lit (.Number "2".data))) := by
  unfold parse_expr_shape
  rw [lexAll_pow]
  rfl

/-- C3 (counterexample): the parse of `2^3^2` is not the right-nested tree
`Power(2, Power(3,2))` the claim states. -/
theorem c3_power_counterexample :
    parse_expr_shape 50 "2^3^2".data ≠
      some (.bin .Power (.lit (.Number "2".data))
        (.bin .Power (.lit (.Number "3".data)) (.lit (.Number "2".data)))) := by
  unfold parse_expr_shape
  rw [lexAll_pow]
  have h : (match expr 50
      [⟨.Number, 0, 1, .Number "2".data⟩, ⟨.Power, 1, 2, .None⟩,
       ⟨.Number, 2, 3, .Number "3".data⟩, ⟨.Power, 3, 4, .None⟩,
       ⟨.Number, 4, 5, .Number "2".data⟩, mkEof 5] with
    | .ok (e, _) => some (shape e)
    | .error _ => none) =
      some (.bin .Power
        (.bin .Power (.lit (.Number "2".data)) (.lit (.Number "3".data)))
        (.lit (.Number "2".data))) := rfl
  rw [h]
  intro hc
  simp at hc

/-- C4 (amended): parsing `let x = ;` terminates with the diagnostic
`Expected Identifier or [ but got ;` whose span is the `;` token's own span
(byte offsets 8 to 9): `call` anchors the report at the current token's
start, not at the `let` keyword. -/
theorem c4_fatal_parse_eval :
    statement 50 (lexAll "let x = ;".data) =
      .error (.diag ⟨"Expected Identifier or [ but got ;", 8, 9⟩) := by
  rw [lexAll_letx]
  rfl

/-- C4 (counterexample): the diagnostic for `let x = ;` is not anchored at
the `let` keyword's start offset 0. -/
theorem c4_anchor_counterexample :
    ¬ ∃ d : Diag, statement 50 (lexAll "let x = ;".data) =
      .error (.diag d) ∧ d.start = 0 := by
  rintro ⟨d, hd, h0⟩
  rw [lexAll_letx] at hd
  have h : statement 50
      [⟨.Let, 0, 3, .Str "let".data⟩, ⟨.Identifier, 4, 5, .Str "x".data⟩,
       ⟨.Assign, 6, 7, .None⟩, ⟨.Semicolon, 8, 9, .None⟩, mkEof 9] =
      .error (.diag ⟨"Expected Identifier or [ but got ;", 8, 9⟩) := rfl
  rw [h] at hd
  simp at hd
  subst hd
  exact absurd h0 (by decide)

theorem term_juxta_contains (f : Nat) : ∀ (start : Nat) (acc : Expression)
    (st : List Token) (out : Expression) (st2 : List Token),
    containsMultiply acc = true →
    term_juxta f start acc st = .ok (out, st2) →
    containsMultiply out = true := by
  induction f with
  | zero =>
    intro start acc st out st2 _ ht
    simp [term_juxta] at ht
  | succ f ih =>
    intro start acc st out st2 hc ht
    simp only [term_juxta] at ht
    split at ht
    · cases hp : power f st with
      | error e => rw [hp] at ht; simp [Bind.bind, Except.bind] at ht
      | ok pr =>
        rw [hp] at ht
        simp only [Bind.bind, Except.bind] at ht
        refine ih start _ pr.2 out st2 ?_ ht
        simp [containsMultiply, binary_expression, kind_to_op, hc]
    · simp at ht
      rw [← ht.1, ← hc]

theorem term_explicit_contains (f : Nat) : ∀ (start : Nat)
    (acc : Expression) (st : List Token) (out : Expression)
    (st2 : List Token),
    containsMultiply acc = true →
    term_explicit f start acc st = .ok (out, st2) →
    containsMultiply out = true := by
  induction f with
  | zero =>
    intro start acc st out st2 _ ht
    simp [term_explicit] at ht
  | succ f ih =>
    intro start acc st out st2 hc ht
    simp only [term_explicit] at ht
    split at ht
    · cases hp : power f (advT st) with
      | error e => rw [hp] at ht; simp [Bind.bind, Except.bind] at ht
      | ok pr =>
        rw [hp] at ht
        simp only [Bind.bind, Except.bind] at ht
        refine ih start _ pr.2 out st2 ?_ ht
        simp [containsMultiply, binary_expression, hc]
    · simp at ht
      rw [← ht.1, ← hc]

theorem term_juxta_enters (f : Nat) (start : Nat) (acc : Expression)
    (st : List Token) (out : Expression) (st2 : List Token)
    (hj : [TokenKind.Identifier, TokenKind.LParen,
      TokenKind.Number].contains (curKind st) = true)
    (ht : term_juxta f start acc st = .ok (out, st2)) :
    containsMultiply out = true := by
  cases f with
  | zero => simp [term_juxta] at ht
  | succ f =>
    simp only [term_juxta] at ht
    rw [if_pos hj] at ht
    cases hp : power f st with
    | error e => rw [hp] at ht; simp [Bind.bind, Except.bind] at ht
    | ok pr =>
      rw [hp] at ht
      simp only [Bind.bind, Except.bind] at ht
      refine term_juxta_contains f start _ pr.2 out st2 ?_ ht
      simp [containsMultiply, binary_expression, kind_to_op]

/-- C6: `2x;` and `2(x);` both parse to an expression statement whose
expression is `Multiply` of the literal `2` and the identifier `x` (the
parenthesized expression collapses to the inner identifier); and in
general, whenever the operand parsed by `power` inside `term` is
immediately followed by an `Identifier`, `(` or `Number` token, the
expression `term` returns contains a synthesized `Multiply` node. -/
theorem c6_implicit_multiplication :
    parse_stmt_shape 50 "2x;".data =
      some (.bin .Multiply (.lit (.Number "2".data))
        (.ident (.Str "x".data))) ∧
    parse_stmt_shape 50 "2(x);".data =
      some (.bin .Multiply (.lit (.Number "2".data))
        (.ident (.Str "x".data))) ∧
    (∀ (f : Nat) (st : List Token) (e : Expression) (st2 : List Token)
        (out : Expression) (st3 : List Token),
      power f st = .ok (e, st2) →
      [TokenKind.Identifier, TokenKind.LParen, TokenKind.Number].contains
        (curKind st2) = true →
      term (f + 1) st = .ok (out, st3) →
      containsMultiply out = true) := by
  refine ⟨?_, ?_, ?_⟩
  · unfold parse_stmt_shape
    rw [lexAll_2x]
    rfl
  · unfold parse_stmt_shape
    rw [lexAll_2px]
    rfl
  · intro f st e st2 out st3 hp hj ht
    simp only [term] at ht
    rw [hp] at ht
    simp only [Bind.bind, Except.bind] at ht
    cases hq : term_juxta f (curT st).start e st2 with
    | error e2 => rw [hq] at ht; simp [Bind.bind, Except.bind] at ht
    | ok pr =>
      rw [hq] at ht
      simp only [Bind.bind, Except.bind] at ht
      exact term_explicit_contains f (curT st).start pr.1 pr.2 out st3
        (term_juxta_enters f (curT st).start e st2 pr.1 pr.2 hj hq) ht

/-- Witness for C6's general clause at a concrete two-number stream. -/
theorem c6_implicit_multiplication_witness :
    containsMultiply
      (.BinaryExpression ⟨0, 3⟩ (.Literal ⟨.Number, 0, 1, .Number "2".data⟩)
        .Multiply (.Literal ⟨.Number, 2, 3, .Number "3".data⟩)) = true := by
  refine c6_implicit_multiplication.2.2 30
    [⟨.Number, 0, 1, .Number "2".data⟩, ⟨.Number, 2, 3, .Number "3".data⟩,
     mkEof 3]
    (.Literal ⟨.Number, 0, 1, .Number "2".data⟩)
    [⟨.Number, 2, 3, .Number "3".data⟩, mkEof 3] _ [mkEof 3] rfl
    (by decide) rfl

/-- C10: on the stream `Number(2), Star, Number(3), Identifier(x)` the
`term` rule folds only the explicit multiplication and returns with the
identifier token unconsumed: the juxtaposition loop runs before the
explicit-operator loop and is never re-entered. -/
theorem c10_juxta_window :
    term 50
      [⟨.Number, 0, 1, .Number "2".data⟩, ⟨.Multiply, 2, 3, .None⟩,
       ⟨.Number, 4, 5, .Number "3".data⟩,
       ⟨.Identifier, 6, 7, .Str "x".data⟩] =
      .ok (.BinaryExpression ⟨0, 7⟩
        (.Literal ⟨.Number, 0, 1, .Number "2".data⟩) .Multiply
        (.Literal ⟨.Number, 4, 5, .Number "3".data⟩),
        [⟨.Identifier, 6, 7, .Str "x".data⟩]) := rfl

/-!
Scope-vault embedding (`src/interpreter/src/interpreter/mod.rs`).  Scope
paths are Rust `String`s, embedded as `List Char`.  The `Vault` and
`ScopeValue` types live in the types crate's interpreter module, which is
not vendored under `src/`; their shapes are modelled from the spec
(section 3: scope record = bindings map plus ordered list of named child
paths; vault = map from path to record) and from the interpreter's field
accesses.  Maps are association lists with `HashMap` semantics (insert
replaces, remove deletes, lookup finds the unique entry).  The `unwrap`
calls of the Rust code are modelled by `Option`: a `none` result is a
panic. -/

/-- Scope path (a Rust `String`). -/
abbrev Path := List Char

/-- Decimal digit to character, as in Rust's `Display` for `usize`. -/
def digitChar (d : Nat) : Char := Char.ofNat (48 + d)

/-- Fuel-driven digit accumulation (the fuel is an upper bound on the
number of digits; `natToChars` supplies `n` itself, which is enough). -/
def natToCharsAux : Nat → Nat → List Char → List Char
  | 0, _, acc => acc
  | fuel + 1, n, acc =>
    if n = 0 then acc
    else natToCharsAux fuel (n / 10) (digitChar (n % 10) :: acc)

/-- Decimal rendering of a `usize`, as produced by `format!("{}", n)`. -/
def natToChars (n : Nat) : List Char :=
  if n = 0 then ['0'] else natToCharsAux n n []

/-- Numeric value of a digit character. -/
def charVal (c : Char) : Nat := c.toNat - 48

/-- Rust `str::parse::<usize>` (restricted to plain digit strings; the
Rust parser also accepts a leading `+`, which no scope path contains). -/
def parseNat? (s : List Char) : Option Nat :=
  if s.isEmpty then none
  else if s.all isDigitChar then
    some (s.foldl (fun acc c => acc * 10 + charVal c) 0)
  else none

/-- Rust `str::rsplit_once(".$")`: split at the LAST occurrence of the
two-character pattern `.$`, returning the text before and after it. -/
def rsplitHere (c : Char) (rest : List Char) :
    Option (List Char × List Char) :=
  match c, rest with
  | '.', '$' :: suf => some ([], suf)
  | _, _ => none

def rsplitDS : List Char → Option (List Char × List Char)
  | [] => none
  | c :: rest =>
    match rsplitDS rest with
    | some (pre, suf) => some (c :: pre, suf)
    | none => rsplitHere c rest

/-- The scope path with core `c` and anonymous-nesting index `n`
(`format!("{}.${}", c, n)`). -/
def mkPath (c : Path) (n : Nat) : Path := c ++ '.' :: '$' :: natToChars n

/-- Modelled from the spec: native-function tags registered by
`add_native_functions`. -/
inductive NativeFunction where
  | Print
  | Println
deriving DecidableEq

/-- Modelled from the spec: `BindingValue` is polymorphic over a native
function tag and an evaluator-owned value payload (the payload domain is
unspecified by the spec; `Nat` stands in for it). -/
inductive ScopeValues where
  | NativeFunction (f : NativeFunction)
  | Value (n : Nat)
deriving DecidableEq

/-- Modelled from the spec: one scope record — the bindings map `values`
and the ordered list `named_scope_refs` of named child scope paths
registered while the scope was current. -/
structure ScopeValue where
  values : List (Path × ScopeValues)
  named_scope_refs : List Path
deriving DecidableEq

/-- `ScopeValue::new()`: a fresh, empty scope record. -/
def ScopeValue.new : ScopeValue := ⟨[], []⟩

/-- Association-list lookup with unique-key (`HashMap`) semantics. -/
def alGet {β : Type} (k : Path) : List (Path × β) → Option β
  | [] => none
  | (k', v) :: rest => if k' = k then some v else alGet k rest

/-- Remove every entry at key `k` (`HashMap::remove`). -/
def alRemove {β : Type} (k : Path) : List (Path × β) → List (Path × β)
  | [] => []
  | (k', v) :: rest =>
    if k' = k then alRemove k rest else (k', v) :: alRemove k rest

/-- Insert, replacing any existing entry (`HashMap::insert`). -/
def alInsert {β : Type} (k : Path) (v : β) (l : List (Path × β)) :
    List (Path × β) := (k, v) :: alRemove k l

/-- Interpreter state: the scope stack, the cached current scope and the
vault (`Interpreter` fields `scope_stack`, `current_scope`, `vault`). -/
structure InterpState where
  scope_stack : List Path
  current_scope : Path
  vault : List (Path × ScopeValue)
deriving DecidableEq

/-- `Interpreter::new`: empty stack, empty current scope, empty vault. -/
def new_state : InterpState := ⟨[], [], []⟩

/-- `Interpreter::update_current_scope`:
`self.current_scope = self.scope_stack.last().unwrap().clone()`. -/
def update_current_scope (s : InterpState) : Option InterpState :=
  match s.scope_stack.getLast? with
  | none => none
  | some c => some { s with current_scope := c }

/-- `Interpreter::parse_current_scope`:
`self.current_scope.rsplit_once(".$").unwrap()` then
`num.parse::<usize>().unwrap()`. -/
def parse_current_scope (s : InterpState) : Option (Path × Nat) :=
  match rsplitDS s.current_scope with
  | none => none
  | some (scope_name, numStr) =>
    match parseNat? numStr with
    | none => none
    | some num => some (scope_name, num)

/-- `Interpreter::add_native_functions` (registers `print` and `println`
in the current scope; the `get_curr_value` unwrap is the `Option`). -/
def add_native_functions (s : InterpState) : Option InterpState :=
  match alGet s.current_scope s.vault with
  | none => none
  | some sv =>
    let sv2 := { sv with
      values := alInsert "println".data (.NativeFunction .Println)
        (alInsert "print".data (.NativeFunction .Print) sv.values) }
    some { s with vault := alInsert s.current_scope sv2 s.vault }

/-- Modelled from the spec: `bind(name, value)` into the current scope
(section 6), mirroring `add_native_functions`' use of `get_curr_value`. -/
def bind_value (name : Path) (v : ScopeValues) (s : InterpState) :
    Option InterpState :=
  match alGet s.current_scope s.vault with
  | none => none
  | some sv =>
    let sv2 := { sv with values := alInsert name v sv.values }
    some { s with vault := alInsert s.current_scope sv2 s.vault }

/-- `Interpreter::send_scope_ref`: push a named-child path onto the
current scope's `named_scope_refs` (through the `get_curr_scope_refs`
unwrap). -/
def send_scope_ref (name : Path) (s : InterpState) : Option InterpState :=
  match alGet s.current_scope s.vault with
  | none => none
  | some sv =>
    let sv2 := { sv with named_scope_refs := sv.named_scope_refs ++ [name] }
    some { s with vault := alInsert s.current_scope sv2 s.vault }

/-- `Interpreter::init_scope`: insert a fresh record at `scope_name`
(replacing any existing one — `HashMap::insert`), push it, update. -/
def init_scope (scope_name : Path) (s : InterpState) : Option InterpState :=
  let v2 := alInsert scope_name ScopeValue.new s.vault
  let st2 := s.scope_stack ++ [scope_name]
  update_current_scope { s with vault := v2, scope_stack := st2 }

/-- `Interpreter::enter_named_scope`: new path
`format!("{}.{}.$0", scope_name, name)`, registered as a named child of
the current scope, then initialized and made current. -/
def enter_named_scope (name : Path) (s : InterpState) : Option InterpState :=
  match parse_current_scope s with
  | none => none
  | some (scope_name, _) =>
    let new_scope := scope_name ++ '.' :: (name ++ '.' :: '$' :: '0' :: [])
    match send_scope_ref new_scope s with
    | none => none
    | some s1 => init_scope new_scope s1

/-- `Interpreter::exit_named_scope`: pop (Rust `Vec::pop` is a no-op on an
empty stack) and update; the named scope's record is deliberately kept. -/
def exit_named_scope (s : InterpState) : Option InterpState :=
  update_current_scope { s with scope_stack := s.scope_stack.dropLast }

/-- `Interpreter::increment_scope`: bump the trailing `.$N` to `.$(N+1)`
on the same prefix and initialize the fresh anonymous scope. -/
def increment_scope (s : InterpState) : Option InterpState :=
  match parse_current_scope s with
  | none => none
  | some (scope_name, num) =>
    init_scope (scope_name ++ '.' :: '$' :: natToChars (num + 1)) s

/-- `Interpreter::decrement_scope`: delete every named child registered in
the current scope's record, delete the current scope's own record, pop the
stack, update. -/
def decrement_scope (s : InterpState) : Option InterpState :=
  match alGet s.current_scope s.vault with
  | none => none
  | some sv =>
    let v1 := sv.named_scope_refs.foldl (fun v r => alRemove r v) s.vault
    let v2 := alRemove s.current_scope v1
    update_current_scope
      { s with vault := v2, scope_stack := s.scope_stack.dropLast }

/-- `Interpreter::initialize` (renamed: `initialize` is reserved in this
environment): create and push `std.$0`, register the native functions,
then create and push `global.$0`. -/
def interpInit (s : InterpState) : Option InterpState :=
  let v1 := alInsert "std.$0".data ScopeValue.new s.vault
  let k1 := s.scope_stack ++ ["std.$0".data]
  match update_current_scope { s with vault := v1, scope_stack := k1 } with
  | none => none
  | some s2 =>
    match add_native_functions s2 with
    | none => none
    | some s3 =>
      let v4 := alInsert "global.$0".data ScopeValue.new s3.vault
      let k4 := s3.scope_stack ++ ["global.$0".data]
      update_current_scope { s3 with vault := v4, scope_stack := k4 }

/-- C1 (code behaviour at the failing input): after
`enter_named_scope("Foo")`, binding `x`, `exit_named_scope()`, the record
of `global.Foo.$0` still holds `x`; but re-entering `Foo` from the same
parent replaces the record with a fresh empty one (`init_scope` uses
`HashMap::insert`), so the binding from the first activation is gone. -/
theorem c1_named_scope_reset_eval :
    ((((interpInit new_state).bind
        (enter_named_scope "Foo".data)).bind
        (bind_value "x".data (.Value 1))).bind
        exit_named_scope).bind
      (fun s => alGet "global.Foo.$0".data s.vault) =
      some ⟨[("x".data, .Value 1)], []⟩ ∧
    (((((interpInit new_state).bind
        (enter_named_scope "Foo".data)).bind
        (bind_value "x".data (.Value 1))).bind
        exit_named_scope).bind
        (enter_named_scope "Foo".data)).bind
      (fun s => alGet "global.Foo.$0".data s.vault) =
      some ⟨[], []⟩ := by
  constructor
  · decide
  · decide

theorem alGet_remove {β : Type} (k r : Path) (v : List (Path × β)) :
    alGet k (alRemove r v) = if k = r then none else alGet k v := by
  induction v with
  | nil => simp [alRemove, alGet]
  | cons hd tl ih =>
    obtain ⟨k', val⟩ := hd
    by_cases h1 : k' = r
    · subst h1
      rw [show alRemove k' ((k', val) :: tl) = alRemove k' tl from by
        simp [alRemove]]
      rw [ih]
      by_cases h2 : k = k'
      · simp [h2]
      · have h3 : ¬ k' = k := fun hh => h2 hh.symm
        simp [alGet, h2, h3]
    · simp only [alRemove, if_neg h1, alGet]
      by_cases h2 : k' = k
      · rw [if_pos h2, if_pos h2]
        have h3 : ¬ k = r := fun hh => h1 (h2.trans hh)
        rw [if_neg h3]
      · rw [if_neg h2, if_neg h2, ih]

theorem alGet_insert {β : Type} (k k' : Path) (val : β)
    (v : List (Path × β)) :
    alGet k (alInsert k' val v) =
      if k' = k then some val else alGet k v := by
  simp only [alInsert, alGet]
  by_cases h : k' = k
  · rw [if_pos h, if_pos h]
  · rw [if_neg h, if_neg h, alGet_remove]
    have : ¬ k = k' := fun hh => h hh.symm
    rw [if_neg this]

theorem alGet_foldl_remove (rs : List Path)
    (v : List (Path × ScopeValue)) (k : Path) :
    alGet k (rs.foldl (fun acc r => alRemove r acc) v) =
      if k ∈ rs then none else alGet k v := by
  induction rs generalizing v with
  | nil => simp
  | cons r rs ih =>
    simp only [List.foldl_cons]
    rw [ih]
    by_cases h1 : k ∈ rs
    · simp [h1]
    · rw [if_neg h1, alGet_remove]
      by_cases h2 : k = r
      · simp [h2]
      · simp [h1, h2]

/-- C5: `decrement_scope` removes from the vault exactly the named-child
paths registered in the current scope's record together with the current
scope's own record, leaves every other vault entry unchanged, and pops the
scope stack once (the hypotheses are exactly the conditions under which
the Rust `unwrap`s do not panic: the current scope is a vault key and the
stack has an entry below the popped one). -/
theorem c5_decrement_cleanup (s : InterpState) (sv : ScopeValue)
    (h1 : alGet s.current_scope s.vault = some sv)
    (h2 : s.scope_stack.dropLast ≠ []) :
    ∃ s', decrement_scope s = some s' ∧
      s'.scope_stack = s.scope_stack.dropLast ∧
      s.scope_stack.dropLast.getLast? = some s'.current_scope ∧
      ∀ k, alGet k s'.vault =
        if k ∈ sv.named_scope_refs ∨ k = s.current_scope then none
        else alGet k s.vault := by
  cases hgl : s.scope_stack.dropLast.getLast? with
  | none =>
    exact absurd (List.getLast?_eq_none_iff.mp hgl) h2
  | some p =>
    refine ⟨⟨s.scope_stack.dropLast, p,
      alRemove s.current_scope
        (sv.named_scope_refs.foldl (fun v r => alRemove r v) s.vault)⟩,
      ?_, rfl, ?_, ?_⟩
    · simp only [decrement_scope, h1, update_current_scope]
      rw [hgl]
    · rfl
    · intro k
      simp only []
      rw [alGet_remove, alGet_foldl_remove]
      by_cases hk1 : k = s.current_scope
      · simp [hk1]
      · by_cases hk2 : k ∈ sv.named_scope_refs
        · simp [hk1, hk2]
        · simp [hk1, hk2]

/-- Concrete state for the C5 witness: `global.Foo.$0` is registered as a
named child of `global.$0`, while the current anonymous block `global.$1`
registered only `global.Bar.$0`. -/
def c5ex : InterpState :=
  ⟨["std.$0".data, "global.$0".data, "global.$1".data], "global.$1".data,
   [("std.$0".data, ⟨[], []⟩),
    ("global.$0".data, ⟨[], ["global.Foo.$0".data]⟩),
    ("global.Foo.$0".data, ⟨[("y".data, .Value 2)], []⟩),
    ("global.$1".data, ⟨[], ["global.Bar.$0".data]⟩),
    ("global.Bar.$0".data, ⟨[], []⟩)]⟩

/-- Witness for C5: decrementing `global.$1` deletes exactly its
registered named child `global.Bar.$0` and its own record; the named
scope `global.Foo.$0` registered under `global.$0` survives. -/
theorem c5_decrement_cleanup_witness :
    ∃ s', decrement_scope c5ex = some s' ∧
      alGet "global.Foo.$0".data s'.vault =
        some ⟨[("y".data, .Value 2)], []⟩ ∧
      alGet "global.Bar.$0".data s'.vault = none ∧
      alGet "global.$1".data s'.vault = none ∧
      s'.scope_stack = ["std.$0".data, "global.$0".data] := by
  obtain ⟨s', hd, hst, hcur, hv⟩ :=
    c5_decrement_cleanup c5ex ⟨[], ["global.Bar.$0".data]⟩
      (by decide) (by decide)
  refine ⟨s', hd, ?_, ?_, ?_, ?_⟩
  · rw [hv]
    decide
  · rw [hv]
    decide
  · rw [hv]
    decide
  · rw [hst]
    decide

theorem digitChar_spec (d : Nat) (hd : d < 10) :
    isDigitChar (digitChar d) = true ∧ charVal (digitChar d) = d := by
  interval_cases d <;> exact ⟨by decide, by decide⟩

theorem isDigit_ne_dot {c : Char} (h : isDigitChar c = true) : c ≠ '.' := by
  intro hh
  subst hh
  exact absurd h (by decide)

theorem isDigit_ne_dollar {c : Char} (h : isDigitChar c = true) :
    c ≠ '$' := by
  intro hh
  subst hh
  exact absurd h (by decide)

theorem natToCharsAux_acc (f : Nat) : ∀ (n : Nat) (acc : List Char),
    natToCharsAux f n acc = natToCharsAux f n [] ++ acc := by
  induction f with
  | zero => intro n acc; simp [natToCharsAux]
  | succ f ih =>
    intro n acc
    by_cases hn : n = 0
    · simp [natToCharsAux, hn]
    · simp only [natToCharsAux, if_neg hn]
      rw [ih (n / 10) (digitChar (n % 10) :: acc),
        ih (n / 10) [digitChar (n % 10)]]
      simp

theorem natToCharsAux_zero (f : Nat) : natToCharsAux f 0 [] = [] := by
  cases f <;> simp [natToCharsAux]

theorem natToCharsAux_digits (f : Nat) : ∀ (n : Nat) (acc : List Char),
    (∀ c ∈ acc, isDigitChar c = true) →
    ∀ c ∈ natToCharsAux f n acc, isDigitChar c = true := by
  induction f with
  | zero => intro n acc hacc; simpa [natToCharsAux] using hacc
  | succ f ih =>
    intro n acc hacc
    by_cases hn : n = 0
    · simpa [natToCharsAux, hn] using hacc
    · simp only [natToCharsAux, if_neg hn]
      refine ih (n / 10) _ ?_
      intro c hc
      rcases List.mem_cons.mp hc with rfl | hc2
      · exact (digitChar_spec (n % 10) (Nat.mod_lt _ (by norm_num))).1
      · exact hacc c hc2

theorem natToCharsAux_ne_nil (f n : Nat) (hf : n ≤ f) (hn : 0 < n) :
    natToCharsAux f n [] ≠ [] := by
  match f with
  | 0 => omega
  | f + 1 =>
    simp only [natToCharsAux, if_neg (by omega : ¬ n = 0)]
    rw [natToCharsAux_acc]
    simp

theorem natToChars_spec (n : Nat) :
    natToChars n ≠ [] ∧ ∀ c ∈ natToChars n, isDigitChar c = true := by
  unfold natToChars
  by_cases hn : n = 0
  · subst hn; exact ⟨by decide, by decide⟩
  · rw [if_neg hn]
    exact ⟨natToCharsAux_ne_nil n n (Nat.le_refl _) (Nat.pos_of_ne_zero hn),
      natToCharsAux_digits n n [] (by simp)⟩

theorem natToCharsAux_val : ∀ (n f : Nat), n ≤ f → 0 < n →
    (natToCharsAux f n []).foldl (fun acc c => acc * 10 + charVal c) 0 =
      n := by
  intro n
  induction n using Nat.strong_induction_on with
  | _ n ih =>
    intro f hf hn
    match f with
    | 0 => omega
    | f + 1 =>
      have hn' : ¬ n = 0 := by omega
      simp only [natToCharsAux, if_neg hn']
      rw [natToCharsAux_acc, List.foldl_append]
      simp only [List.foldl_cons, List.foldl_nil]
      have hmd := Nat.mod_add_div n 10
      by_cases h10 : n / 10 = 0
      · rw [h10, natToCharsAux_zero]
        simp only [List.foldl_nil]
        rw [(digitChar_spec (n % 10) (Nat.mod_lt _ (by norm_num))).2]
        omega
      · have hlt : n / 10 < n := Nat.div_lt_self hn (by norm_num)
        rw [ih (n / 10) hlt f (by omega) (Nat.pos_of_ne_zero h10)]
        rw [(digitChar_spec (n % 10) (Nat.mod_lt _ (by norm_num))).2]
        omega

theorem parseNat_natToChars (n : Nat) :
    parseNat? (natToChars n) = some n := by
  by_cases hn : n = 0
  · subst hn; decide
  · have hs := natToChars_spec n
    unfold parseNat?
    rw [if_neg (by simpa [List.isEmpty_iff] using hs.1)]
    rw [if_pos (List.all_eq_true.mpr (fun c hc => hs.2 c hc))]
    unfold natToChars
    rw [if_neg hn]
    rw [natToCharsAux_val n n (Nat.le_refl _) (Nat.pos_of_ne_zero hn)]

theorem natToChars_inj {m n : Nat} (h : natToChars m = natToChars n) :
    m = n := by
  have hm := parseNat_natToChars m
  have hn := parseNat_natToChars n
  rw [h, hn] at hm
  exact (Option.some.inj hm).symm

theorem rsplitHere_ne_dot (c : Char) (rest : List Char) (h : c ≠ '.') :
    rsplitHere c rest = none := by
  unfold rsplitHere
  split
  · exact absurd rfl h
  · rfl

theorem rsplitDS_none_of_digits : ∀ (l : List Char),
    (∀ c ∈ l, isDigitChar c = true) → rsplitDS l = none := by
  intro l
  induction l with
  | nil => intro _; rfl
  | cons c rest ih =>
    intro h
    rw [rsplitDS, ih (fun x hx => h x (List.mem_cons_of_mem c hx))]
    exact rsplitHere_ne_dot c rest
      (isDigit_ne_dot (h c (List.mem_cons_self c rest)))

theorem rsplit_dollar_digits (ds : List Char)
    (hd : ∀ c ∈ ds, isDigitChar c = true) : rsplitDS ('$' :: ds) = none := by
  rw [rsplitDS, rsplitDS_none_of_digits ds hd]
  exact rsplitHere_ne_dot '$' ds (by decide)

theorem rsplitDS_digits_suffix : ∀ (core ds : List Char), ds ≠ [] →
    (∀ c ∈ ds, isDigitChar c = true) →
    rsplitDS (core ++ '.' :: '$' :: ds) = some (core, ds) := by
  intro core
  induction core with
  | nil =>
    intro ds hne hd
    rw [List.nil_append, rsplitDS, rsplit_dollar_digits ds hd]
    rfl
  | cons c core' ih =>
    intro ds hne hd
    rw [List.cons_append, rsplitDS, ih ds hne hd]

theorem rsplitDS_mkPath (c : Path) (n : Nat) :
    rsplitDS (mkPath c n) = some (c, natToChars n) :=
  rsplitDS_digits_suffix c (natToChars n) (natToChars_spec n).1
    (natToChars_spec n).2

theorem parse_current_mkPath (s : InterpState) (c : Path) (n : Nat)
    (h : s.current_scope = mkPath c n) :
    parse_current_scope s = some (c, n) := by
  unfold parse_current_scope
  rw [h, rsplitDS_mkPath]
  show (match parseNat? (natToChars n) with
        | none => none
        | some num => some (c, num)) = some (c, n)
  rw [parseNat_natToChars]

/-- A named-child path (ending in `.<name>.$0` appended after `e`) is
never a numbered path `.$<digits>` over the same prefix. -/
theorem ref_ne_numPath (e nm ds : List Char) (hne : ds ≠ [])
    (hd : ∀ c ∈ ds, isDigitChar c = true) :
    '.' :: '$' :: ds ≠ e ++ '.' :: (nm ++ '.' :: '$' :: '0' :: []) := by
  intro h
  have h2 := congrArg List.reverse h
  simp only [List.reverse_cons, List.reverse_append, List.append_assoc] at h2
  cases hrd : ds.reverse with
  | nil =>
    exact hne (by simpa using congrArg List.reverse hrd)
  | cons d t =>
    rw [hrd] at h2
    simp only [List.cons_append, List.nil_append] at h2
    injection h2 with hh ht
    cases t with
    | nil =>
      simp at ht
    | cons t1 t2 =>
      injection ht with ht1 _
      have hmem : t1 ∈ ds := by
        have : t1 ∈ ds.reverse := by
          rw [hrd]
          exact List.mem_cons_of_mem d (List.mem_cons_self t1 t2)
        simpa using this
      exact isDigit_ne_dollar (hd t1 hmem) ht1

/-- Two numbered suffixes over comparable prefixes agree only when the
extension is empty. -/
theorem numSuffix_inj (e ds1 ds2 : List Char)
    (hd2 : ∀ c ∈ ds2, isDigitChar c = true)
    (h : e ++ '.' :: '$' :: ds1 = '.' :: '$' :: ds2) :
    e = [] ∧ ds1 = ds2 := by
  cases e with
  | nil =>
    rw [List.nil_append] at h
    simp only [List.cons.injEq] at h
    exact ⟨rfl, h.2.2⟩
  | cons c e' =>
    rw [List.cons_append] at h
    injection h with h1 h2
    cases e' with
    | nil =>
      rw [List.nil_append] at h2
      injection h2 with h3 _
      exact absurd h3 (by decide)
    | cons c2 e'' =>
      rw [List.cons_append] at h2
      injection h2 with h3 h4
      have hm : ('.' : Char) ∈ ds2 := by
        rw [← h4]
        exact List.mem_append.mpr (Or.inr (List.mem_cons_self _ _))
      exact absurd (hd2 '.' hm) (by decide)

/-- A scope-stack frame, decomposed as its core path and anonymous
index: the frame's full path is `mkPath core idx`. -/
abbrev Frame := Path × Nat

/-- Full path of a frame. -/
def fpath (f : Frame) : Path := mkPath f.1 f.2

/-- Every named-scope reference registered in a record at core `c` has
the shape `c ++ "." ++ name ++ ".$0"` (as produced by
`enter_named_scope`). -/
def RefsGood (c : Path) (sv : ScopeValue) : Prop :=
  ∀ r ∈ sv.named_scope_refs,
    ∃ nm, r = c ++ '.' :: (nm ++ '.' :: '$' :: '0' :: [])

/-- Stack order: an earlier frame's core is a prefix of a later frame's
core, and frames sharing a core have strictly increasing indices. -/
def FrameR (a b : Frame) : Prop :=
  (∃ t, a.1 ++ t = b.1) ∧ (a.1 = b.1 → a.2 < b.2)

def stdFrame : Frame := ("std".data, 0)

def globalFrame : Frame := ("global".data, 0)

/-- Reachability invariant: the scope stack is `std.$0` followed by the
global-rooted chain `mid ++ [top]` headed by `global.$0`; the cached
current scope is the top frame's path; the chain is ordered by `FrameR`;
every chain core extends `global`; and every frame's path is a vault key
whose record's refs are well-formed. -/
def ScopeInv (s : InterpState) (mid : List Frame) (top : Frame) : Prop :=
  s.scope_stack = fpath stdFrame :: (mid ++ [top]).map fpath ∧
  s.current_scope = fpath top ∧
  (mid ++ [top]).head? = some globalFrame ∧
  List.Pairwise FrameR (mid ++ [top]) ∧
  (∀ f ∈ mid ++ [top], ∃ t, "global".data ++ t = f.1) ∧
  (∀ f ∈ stdFrame :: (mid ++ [top]), ∃ sv,
    alGet (fpath f) s.vault = some sv ∧ RefsGood f.1 sv)

theorem mkPath_inj {c1 c2 : Path} {n1 n2 : Nat}
    (h : mkPath c1 n1 = mkPath c2 n2) : c1 = c2 ∧ n1 = n2 := by
  have h1 : (some (c2, natToChars n2) : Option (Path × List Char)) =
      some (c1, natToChars n1) := by
    rw [← rsplitDS_mkPath c2 n2, ← rsplitDS_mkPath c1 n1, h]
  simp only [Option.some.injEq, Prod.mk.injEq] at h1
  exact ⟨h1.1.symm, natToChars_inj h1.2.symm⟩

theorem fpath_inj {a b : Frame} (h : fpath a = fpath b) : a = b := by
  obtain ⟨h1, h2⟩ := mkPath_inj h
  exact Prod.ext h1 h2

theorem prefix_length {a b : Path} (h : ∃ t, a ++ t = b) :
    a.length ≤ b.length := by
  obtain ⟨t, ht⟩ := h
  rw [← ht, List.length_append]
  exact Nat.le_add_right _ _

theorem frameR_ne {a b : Frame} (h : FrameR a b) : fpath a ≠ fpath b := by
  intro he
  have heq := fpath_inj he
  subst heq
  exact absurd (h.2 rfl) (Nat.lt_irrefl _)

/-- The path built by `enter_named_scope` is `mkPath` of the extended
core at index 0. -/
theorem named_form_eq_mkPath (c nm : Path) :
    c ++ '.' :: (nm ++ '.' :: '$' :: '0' :: []) =
      mkPath (c ++ '.' :: nm) 0 := by
  simp [mkPath, natToChars, List.append_assoc]

/-- A frame whose core is a prefix of `c` is never the named-child key
over `c` (the extended core is strictly longer). -/
theorem frame_ne_named {f : Frame} {c nm : Path}
    (hp : ∃ t, f.1 ++ t = c) :
    fpath f ≠ mkPath (c ++ '.' :: nm) 0 := by
  intro h
  obtain ⟨h1, _⟩ := mkPath_inj h
  have hl := prefix_length hp
  rw [h1] at hl
  simp only [List.length_append, List.length_cons] at hl
  omega

/-- A frame with index at most `top.2` on core agreement is never the
incremented key `mkPath top.1 (top.2 + 1)`. -/
theorem frame_ne_inc {f top : Frame}
    (h2 : f.1 = top.1 → f.2 ≤ top.2) :
    fpath f ≠ mkPath top.1 (top.2 + 1) := by
  intro h
  obtain ⟨h1, hn⟩ := mkPath_inj h
  have := h2 h1
  omega

/-- `std.$0` differs from every key whose core extends `global`. -/
theorem std_ne_gkey {c : Path} {k : Nat}
    (h : ∃ t, "global".data ++ t = c) :
    fpath stdFrame ≠ mkPath c k := by
  intro he
  obtain ⟨h1, _⟩ := mkPath_inj he
  obtain ⟨t, ht⟩ := h
  rw [← h1] at ht
  have ht2 : ('g' : Char) :: ("lobal".data ++ t) = 's' :: "td".data := ht
  injection ht2 with hg _
  exact absurd hg (by decide)

theorem gcore_extend {c x : Path} (h : ∃ t, "global".data ++ t = c) :
    ∃ t, "global".data ++ t = c ++ x := by
  obtain ⟨t, ht⟩ := h
  exact ⟨t ++ x, by rw [← List.append_assoc, ht]⟩

theorem init_scope_eq (k : Path) (s : InterpState) :
    init_scope k s = some ⟨s.scope_stack ++ [k], k,
      alInsert k ScopeValue.new s.vault⟩ := by
  simp only [init_scope, update_current_scope]
  rw [List.getLast?_concat]

theorem send_scope_ref_eq (name : Path) (s : InterpState) (sv : ScopeValue)
    (h : alGet s.current_scope s.vault = some sv) :
    send_scope_ref name s = some { s with
      vault := alInsert s.current_scope
        ⟨sv.values, sv.named_scope_refs ++ [name]⟩ s.vault } := by
  simp only [send_scope_ref, h]

theorem exit_named_scope_eq (s : InterpState) (p : Path)
    (hl : s.scope_stack.dropLast.getLast? = some p) :
    exit_named_scope s = some ⟨s.scope_stack.dropLast, p, s.vault⟩ := by
  simp only [exit_named_scope, update_current_scope]
  rw [hl]

theorem decrement_scope_eq (s : InterpState) (sv : ScopeValue) (p : Path)
    (h : alGet s.current_scope s.vault = some sv)
    (hl : s.scope_stack.dropLast.getLast? = some p) :
    decrement_scope s = some ⟨s.scope_stack.dropLast, p,
      alRemove s.current_scope
        (sv.named_scope_refs.foldl (fun v r => alRemove r v) s.vault)⟩ := by
  simp only [decrement_scope, h, update_current_scope]
  rw [hl]

theorem inv_stack_getLast (mid : List Frame) (top : Frame) :
    (fpath stdFrame :: (mid ++ [top]).map fpath).getLast? =
      some (fpath top) := by
  have h : fpath stdFrame :: (mid ++ [top]).map fpath =
      (fpath stdFrame :: mid.map fpath) ++ [fpath top] := by simp
  rw [h]
  exact List.getLast?_concat _

theorem inv_stack_dropLast (mid : List Frame) (top : Frame) :
    (fpath stdFrame :: (mid ++ [top]).map fpath).dropLast =
      fpath stdFrame :: mid.map fpath := by
  have h : fpath stdFrame :: (mid ++ [top]).map fpath =
      (fpath stdFrame :: mid.map fpath) ++ [fpath top] := by simp
  rw [h, List.dropLast_concat]

theorem chain_pref_top {mid : List Frame} {top : Frame}
    (hpw : List.Pairwise FrameR (mid ++ [top])) :
    ∀ f ∈ mid ++ [top], ∃ t, f.1 ++ t = top.1 := by
  intro f hf
  rcases List.mem_append.mp hf with h1 | h2
  · exact ((List.pairwise_append.mp hpw).2.2 f h1 top (by simp)).1
  · have he : f = top := by simpa using h2
    subst he
    exact ⟨[], List.append_nil _⟩

theorem enter_step (nm : Path) (s : InterpState) (mid : List Frame)
    (top : Frame) (hInv : ScopeInv s mid top) :
    ∃ s', enter_named_scope nm s = some s' ∧
      ScopeInv s' (mid ++ [top]) (top.1 ++ '.' :: nm, 0) := by
  obtain ⟨hstack, hcur, hhead, hpw, hcore, hvault⟩ := hInv
  have hparse : parse_current_scope s = some (top.1, top.2) :=
    parse_current_mkPath s top.1 top.2 hcur
  obtain ⟨sv, hget0, hrefs⟩ := hvault top (by simp)
  have hget : alGet s.current_scope s.vault = some sv := by
    rw [hcur]; exact hget0
  have hKf : top.1 ++ '.' :: (nm ++ '.' :: '$' :: '0' :: []) =
      fpath (top.1 ++ '.' :: nm, 0) := named_form_eq_mkPath top.1 nm
  have hgtop : ∃ t, "global".data ++ t = top.1 := hcore top (by simp)
  have hPref := chain_pref_top hpw
  have hRtop : ∀ g ∈ mid, FrameR g top := fun g hg =>
    (List.pairwise_append.mp hpw).2.2 g hg top (by simp)
  have hsend := send_scope_ref_eq
    (top.1 ++ '.' :: (nm ++ '.' :: '$' :: '0' :: [])) s sv hget
  have hKne : ∀ g ∈ stdFrame :: (mid ++ [top]),
      fpath g ≠ fpath (top.1 ++ '.' :: nm, 0) := by
    intro g hg
    rcases List.mem_cons.mp hg with rfl | hg'
    · exact std_ne_gkey (gcore_extend hgtop)
    · exact frame_ne_named (hPref g hg')
  have hTne : ∀ g ∈ mid, s.current_scope ≠ fpath g := by
    intro g hg
    rw [hcur]
    exact fun hh => frameR_ne (hRtop g hg) hh.symm
  have hstdtop : s.current_scope ≠ fpath stdFrame := by
    rw [hcur]
    exact fun hh => std_ne_gkey hgtop hh.symm
  refine ⟨⟨s.scope_stack ++ [fpath (top.1 ++ '.' :: nm, 0)],
    fpath (top.1 ++ '.' :: nm, 0),
    alInsert (fpath (top.1 ++ '.' :: nm, 0)) ScopeValue.new
      (alInsert s.current_scope
        ⟨sv.values, sv.named_scope_refs ++ [fpath (top.1 ++ '.' :: nm, 0)]⟩
        s.vault)⟩, ?_, ?_⟩
  · simp only [enter_named_scope, hparse, hsend, init_scope_eq]
    rw [← hKf]
  · refine ⟨?_, rfl, ?_, ?_, ?_, ?_⟩
    · rw [hstack]
      simp [List.map_append, List.cons_append]
    · cases mid with
      | nil => simpa using hhead
      | cons a l => simpa using hhead
    · rw [List.pairwise_append]
      refine ⟨hpw, by simp, ?_⟩
      intro a ha b hb
      have hb' : b = (top.1 ++ '.' :: nm, 0) := by simpa using hb
      subst hb'
      obtain ⟨t, ht⟩ := hPref a ha
      refine ⟨⟨t ++ '.' :: nm, by rw [← List.append_assoc, ht]⟩, ?_⟩
      intro hae
      exfalso
      have hl := prefix_length ⟨t, ht⟩
      rw [hae] at hl
      simp only [List.length_append, List.length_cons] at hl
      omega
    · intro f hf
      rcases List.mem_append.mp hf with h1 | h2
      · exact hcore f h1
      · have he : f = (top.1 ++ '.' :: nm, 0) := by simpa using h2
        subst he
        exact gcore_extend hgtop
    · intro f hf
      rcases List.mem_cons.mp hf with rfl | hf'
      · obtain ⟨svs, hs, hr⟩ := hvault stdFrame (by simp)
        refine ⟨svs, ?_, hr⟩
        rw [alGet_insert, if_neg (fun hh => hKne stdFrame (by simp) hh.symm),
          alGet_insert, if_neg hstdtop]
        exact hs
      · rcases List.mem_append.mp hf' with hfG | hfT
        · rcases List.mem_append.mp hfG with hmid | htop
          · obtain ⟨svf, hsf, hrf⟩ := hvault f
              (List.mem_cons_of_mem _ (List.mem_append_left _ hmid))
            refine ⟨svf, ?_, hrf⟩
            rw [alGet_insert, if_neg (fun hh => hKne f
                (List.mem_cons_of_mem _ (List.mem_append_left _ hmid)) hh.symm),
              alGet_insert, if_neg (hTne f hmid)]
            exact hsf
          · have he : f = top := by simpa using htop
            subst he
            refine ⟨⟨sv.values,
              sv.named_scope_refs ++ [fpath (f.1 ++ '.' :: nm, 0)]⟩, ?_, ?_⟩
            · rw [alGet_insert, if_neg (fun hh => hKne f (by simp) hh.symm),
                alGet_insert, if_pos hcur]
            · intro r hr
              rcases List.mem_append.mp hr with h1 | h2
              · exact hrefs r h1
              · have he2 : r = fpath (f.1 ++ '.' :: nm, 0) := by simpa using h2
                subst he2
                exact ⟨nm, hKf.symm⟩
        · have he : f = (top.1 ++ '.' :: nm, 0) := by simpa using hfT
          subst he
          refine ⟨ScopeValue.new, ?_, ?_⟩
          · rw [alGet_insert, if_pos rfl]
          · intro r hr
            exact absurd hr (by simp [ScopeValue.new])

theorem increment_step (s : InterpState) (mid : List Frame) (top : Frame)
    (hInv : ScopeInv s mid top) :
    ∃ s', increment_scope s = some s' ∧
      ScopeInv s' (mid ++ [top]) (top.1, top.2 + 1) := by
  obtain ⟨hstack, hcur, hhead, hpw, hcore, hvault⟩ := hInv
  have hparse : parse_current_scope s = some (top.1, top.2) :=
    parse_current_mkPath s top.1 top.2 hcur
  have hgtop : ∃ t, "global".data ++ t = top.1 := hcore top (by simp)
  have hPref := chain_pref_top hpw
  have hRtop : ∀ g ∈ mid, FrameR g top := fun g hg =>
    (List.pairwise_append.mp hpw).2.2 g hg top (by simp)
  have hKne : ∀ g ∈ stdFrame :: (mid ++ [top]),
      fpath g ≠ fpath (top.1, top.2 + 1) := by
    intro g hg
    rcases List.mem_cons.mp hg with rfl | hg'
    · exact std_ne_gkey hgtop
    · rcases List.mem_append.mp hg' with h1 | h2
      · exact frame_ne_inc (fun hh => Nat.le_of_lt ((hRtop g h1).2 hh))
      · have he : g = top := by simpa using h2
        subst he
        exact frame_ne_inc (fun _ => Nat.le_refl _)
  refine ⟨⟨s.scope_stack ++ [fpath (top.1, top.2 + 1)],
    fpath (top.1, top.2 + 1),
    alInsert (fpath (top.1, top.2 + 1)) ScopeValue.new s.vault⟩, ?_, ?_⟩
  · simp only [increment_scope, hparse, init_scope_eq]
    rfl
  · refine ⟨?_, rfl, ?_, ?_, ?_, ?_⟩
    · rw [hstack]
      simp [List.map_append, List.cons_append]
    · cases mid with
      | nil => simpa using hhead
      | cons a l => simpa using hhead
    · rw [List.pairwise_append]
      refine ⟨hpw, by simp, ?_⟩
      intro a ha b hb
      have hb' : b = (top.1, top.2 + 1) := by simpa using hb
      subst hb'
      refine ⟨hPref a ha, ?_⟩
      intro hae
      rcases List.mem_append.mp ha with h1 | h2
      · exact Nat.lt_succ_of_lt ((hRtop a h1).2 hae)
      · have he : a = top := by simpa using h2
        subst he
        exact Nat.lt_succ_self _
    · intro f hf
      rcases List.mem_append.mp hf with h1 | h2
      · exact hcore f h1
      · have he : f = (top.1, top.2 + 1) := by simpa using h2
        subst he
        exact hgtop
    · intro f hf
      rcases List.mem_cons.mp hf with rfl | hf'
      · obtain ⟨svs, hs, hr⟩ := hvault stdFrame (by simp)
        refine ⟨svs, ?_, hr⟩
        rw [alGet_insert, if_neg (fun hh => hKne stdFrame (by simp) hh.symm)]
        exact hs
      · rcases List.mem_append.mp hf' with hfG | hfT
        · obtain ⟨svf, hsf, hrf⟩ := hvault f (List.mem_cons_of_mem _ hfG)
          refine ⟨svf, ?_, hrf⟩
          rw [alGet_insert,
            if_neg (fun hh => hKne f (List.mem_cons_of_mem _ hfG) hh.symm)]
          exact hsf
        · have he : f = (top.1, top.2 + 1) := by simpa using hfT
          subst he
          refine ⟨ScopeValue.new, ?_, ?_⟩
          · rw [alGet_insert, if_pos rfl]
          · intro r hr
            exact absurd hr (by simp [ScopeValue.new])

theorem exit_step (s : InterpState) (mid₁ : List Frame) (t₁ top : Frame)
    (hInv : ScopeInv s (mid₁ ++ [t₁]) top) :
    ∃ s', exit_named_scope s = some s' ∧ ScopeInv s' mid₁ t₁ := by
  obtain ⟨hstack, hcur, hhead, hpw, hcore, hvault⟩ := hInv
  have hdrop : s.scope_stack.dropLast =
      fpath stdFrame :: (mid₁ ++ [t₁]).map fpath := by
    rw [hstack]
    exact inv_stack_dropLast _ _
  have hlast : s.scope_stack.dropLast.getLast? = some (fpath t₁) := by
    rw [hdrop]
    exact inv_stack_getLast mid₁ t₁
  refine ⟨⟨s.scope_stack.dropLast, fpath t₁, s.vault⟩,
    exit_named_scope_eq s _ hlast, ?_⟩
  refine ⟨hdrop, rfl, ?_, (List.pairwise_append.mp hpw).1, ?_, ?_⟩
  · cases mid₁ with
    | nil => simpa using hhead
    | cons a l => simpa using hhead
  · intro f hf
    exact hcore f (List.mem_append_left _ hf)
  · intro f hf
    rcases List.mem_cons.mp hf with rfl | hf'
    · exact hvault stdFrame (by simp)
    · exact hvault f (List.mem_cons_of_mem _ (List.mem_append_left _ hf'))

theorem decrement_step (s : InterpState) (mid₁ : List Frame) (t₁ top : Frame)
    (hInv : ScopeInv s (mid₁ ++ [t₁]) top) :
    ∃ s', decrement_scope s = some s' ∧ ScopeInv s' mid₁ t₁ := by
  obtain ⟨hstack, hcur, hhead, hpw, hcore, hvault⟩ := hInv
  have hgtop : ∃ t, "global".data ++ t = top.1 := hcore top (by simp)
  have hPref := chain_pref_top hpw
  obtain ⟨sv, hget0, hrefs⟩ := hvault top (by simp)
  have hget : alGet s.current_scope s.vault = some sv := by
    rw [hcur]; exact hget0
  have hdrop : s.scope_stack.dropLast =
      fpath stdFrame :: (mid₁ ++ [t₁]).map fpath := by
    rw [hstack]
    exact inv_stack_dropLast _ _
  have hlast : s.scope_stack.dropLast.getLast? = some (fpath t₁) := by
    rw [hdrop]
    exact inv_stack_getLast mid₁ t₁
  refine ⟨⟨s.scope_stack.dropLast, fpath t₁,
    alRemove s.current_scope
      (sv.named_scope_refs.foldl (fun v r => alRemove r v) s.vault)⟩,
    decrement_scope_eq s sv _ hget hlast, ?_⟩
  refine ⟨hdrop, rfl, ?_, (List.pairwise_append.mp hpw).1, ?_, ?_⟩
  · cases mid₁ with
    | nil => simpa using hhead
    | cons a l => simpa using hhead
  · intro f hf
    exact hcore f (List.mem_append_left _ hf)
  · intro f hf
    have hfG : f ∈ stdFrame :: ((mid₁ ++ [t₁]) ++ [top]) := by
      rcases List.mem_cons.mp hf with rfl | hf'
      · simp
      · exact List.mem_cons_of_mem _ (List.mem_append_left _ hf')
    obtain ⟨svf, h1, h2⟩ := hvault f hfG
    refine ⟨svf, ?_, h2⟩
    have hne_cur : fpath f ≠ s.current_scope := by
      rw [hcur]
      rcases List.mem_cons.mp hf with rfl | hf'
      · exact std_ne_gkey hgtop
      · exact frameR_ne ((List.pairwise_append.mp hpw).2.2 f hf' top (by simp))
    have hnotin : fpath f ∉ sv.named_scope_refs := by
      intro hin
      obtain ⟨nm, hnm⟩ := hrefs _ hin
      rw [named_form_eq_mkPath] at hnm
      rcases List.mem_cons.mp hf with rfl | hf'
      · exact std_ne_gkey (gcore_extend hgtop) hnm
      · exact frame_ne_named (hPref f (List.mem_append_left _ hf')) hnm
    rw [alGet_remove, if_neg hne_cur, alGet_foldl_remove, if_neg hnotin]
    exact h1

/-- The four scope-lifecycle operations of the interpreter. -/
inductive ScopeOp where
  | enterNamed (name : Path)
  | exitNamed
  | increment
  | decrement
deriving DecidableEq

def runOp : ScopeOp → InterpState → Option InterpState
  | .enterNamed nm => enter_named_scope nm
  | .exitNamed => exit_named_scope
  | .increment => increment_scope
  | .decrement => decrement_scope

def runOps : List ScopeOp → InterpState → Option InterpState
  | [], s => some s
  | op :: ops, s =>
    match runOp op s with
    | none => none
    | some s' => runOps ops s'

/-- Marker-stack transition for `exit_named_scope`: allowed only when the
innermost open frame is a named one. -/
def wnExit : List Bool → Option (List Bool)
  | true :: ms => some ms
  | _ => none

/-- Marker-stack transition for `decrement_scope`: allowed only when the
innermost open frame is an anonymous one. -/
def wnDec : List Bool → Option (List Bool)
  | false :: ms => some ms
  | _ => none

/-- Well-nested operation sequences: every exit/decrement closes the
matching still-open enter/increment, and the two initial scopes
`std.$0`/`global.$0` are never popped (the marker stack starts empty). -/
def wn : List ScopeOp → List Bool → Bool
  | [], _ => true
  | .enterNamed _ :: ops, ms => wn ops (true :: ms)
  | .increment :: ops, ms => wn ops (false :: ms)
  | .exitNamed :: ops, ms =>
    match wnExit ms with
    | some ms' => wn ops ms'
    | none => false
  | .decrement :: ops, ms =>
    match wnDec ms with
    | some ms' => wn ops ms'
    | none => false

theorem wn_prefix : ∀ (a b : List ScopeOp) (ms : List Bool),
    wn (a ++ b) ms = true → wn a ms = true := by
  intro a
  induction a with
  | nil => intro b ms _; rfl
  | cons op a ih =>
    intro b ms h
    cases op with
    | enterNamed nm => exact ih b (true :: ms) h
    | increment => exact ih b (false :: ms) h
    | exitNamed =>
      cases ms with
      | nil => exact absurd (show (false : Bool) = true from h) (by decide)
      | cons m ms' =>
        cases m with
        | true => exact ih b ms' h
        | false => exact absurd (show (false : Bool) = true from h) (by decide)
    | decrement =>
      cases ms with
      | nil => exact absurd (show (false : Bool) = true from h) (by decide)
      | cons m ms' =>
        cases m with
        | false => exact ih b ms' h
        | true => exact absurd (show (false : Bool) = true from h) (by decide)

theorem runOps_append : ∀ (a b : List ScopeOp) (s : InterpState),
    runOps (a ++ b) s =
      match runOps a s with
      | none => none
      | some s1 => runOps b s1 := by
  intro a
  induction a with
  | nil => intro b s; rfl
  | cons op a ih =>
    intro b s
    rw [List.cons_append, runOps, runOps]
    cases hop : runOp op s with
    | none => rfl
    | some s1 => exact ih b s1

/-- Preservation: a well-nested operation list run from a state
satisfying the invariant succeeds completely and re-establishes the
invariant; the marker stack mirrors the frames above `global.$0`. -/
theorem runOps_inv : ∀ (ops : List ScopeOp) (ms : List Bool)
    (s : InterpState) (mid : List Frame) (top : Frame),
    wn ops ms = true → ms.length = mid.length → ScopeInv s mid top →
    ∃ s' mid' top', runOps ops s = some s' ∧ ScopeInv s' mid' top' := by
  intro ops
  induction ops with
  | nil =>
    intro ms s mid top _ _ hInv
    exact ⟨s, mid, top, rfl, hInv⟩
  | cons op ops ih =>
    intro ms s mid top h hlen hInv
    cases op with
    | enterNamed nm =>
      obtain ⟨s', hs', hInv'⟩ := enter_step nm s mid top hInv
      obtain ⟨s'', mid'', top'', hr, hI⟩ := ih (true :: ms) s'
        (mid ++ [top]) (top.1 ++ '.' :: nm, 0) h
        (by simp [hlen]) hInv'
      refine ⟨s'', mid'', top'', ?_, hI⟩
      rw [runOps, show runOp (.enterNamed nm) s = enter_named_scope nm s
        from rfl, hs']
      exact hr
    | increment =>
      obtain ⟨s', hs', hInv'⟩ := increment_step s mid top hInv
      obtain ⟨s'', mid'', top'', hr, hI⟩ := ih (false :: ms) s'
        (mid ++ [top]) (top.1, top.2 + 1) h (by simp [hlen]) hInv'
      refine ⟨s'', mid'', top'', ?_, hI⟩
      rw [runOps, show runOp .increment s = increment_scope s from rfl, hs']
      exact hr
    | exitNamed =>
      cases ms with
      | nil => exact absurd (show (false : Bool) = true from h) (by decide)
      | cons m ms' =>
        cases m with
        | false =>
          exact absurd (show (false : Bool) = true from h) (by decide)
        | true =>
          have hne : mid ≠ [] := by
            intro he
            rw [he] at hlen
            simp at hlen
          obtain ⟨mid₁, t₁, rfl⟩ : ∃ mid₁ t₁, mid = mid₁ ++ [t₁] :=
            ⟨mid.dropLast, mid.getLast hne,
              (List.dropLast_append_getLast hne).symm⟩
          obtain ⟨s', hs', hInv'⟩ := exit_step s mid₁ t₁ top hInv
          obtain ⟨s'', mid'', top'', hr, hI⟩ := ih ms' s' mid₁ t₁ h
            (by simpa using hlen) hInv'
          refine ⟨s'', mid'', top'', ?_, hI⟩
          rw [runOps, show runOp .exitNamed s = exit_named_scope s from rfl,
            hs']
          exact hr
    | decrement =>
      cases ms with
      | nil => exact absurd (show (false : Bool) = true from h) (by decide)
      | cons m ms' =>
        cases m with
        | true =>
          exact absurd (show (false : Bool) = true from h) (by decide)
        | false =>
          have hne : mid ≠ [] := by
            intro he
            rw [he] at hlen
            simp at hlen
          obtain ⟨mid₁, t₁, rfl⟩ : ∃ mid₁ t₁, mid = mid₁ ++ [t₁] :=
            ⟨mid.dropLast, mid.getLast hne,
              (List.dropLast_append_getLast hne).symm⟩
          obtain ⟨s', hs', hInv'⟩ := decrement_step s mid₁ t₁ top hInv
          obtain ⟨s'', mid'', top'', hr, hI⟩ := ih ms' s' mid₁ t₁ h
            (by simpa using hlen) hInv'
          refine ⟨s'', mid'', top'', ?_, hI⟩
          rw [runOps, show runOp .decrement s = decrement_scope s from rfl,
            hs']
          exact hr

/-- The state produced by `initialize` from a fresh interpreter:
`std.$0` (holding the native functions) and `global.$0` pushed, the
latter current. -/
def s0c : InterpState :=
  ⟨["std.$0".data, "global.$0".data], "global.$0".data,
   [("global.$0".data, ScopeValue.new),
    ("std.$0".data, ⟨[("println".data, .NativeFunction .Println),
      ("print".data, .NativeFunction .Print)], []⟩)]⟩

theorem interpInit_eq : interpInit new_state = some s0c := by decide

theorem scopeInv_s0c : ScopeInv s0c [] globalFrame := by
  refine ⟨by decide, by decide, rfl, by simp, ?_, ?_⟩
  · intro f hf
    have he : f = globalFrame := by simpa using hf
    subst he
    exact ⟨[], List.append_nil _⟩
  · intro f hf
    rcases List.mem_cons.mp hf with rfl | hf'
    · refine ⟨⟨[("println".data, .NativeFunction .Println),
        ("print".data, .NativeFunction .Print)], []⟩, by decide, ?_⟩
      intro r hr
      exact absurd hr (by simp)
    · have he : f = globalFrame := by simpa using hf'
      subst he
      refine ⟨ScopeValue.new, by decide, ?_⟩
      intro r hr
      exact absurd hr (by simp [ScopeValue.new])

/-- C9: scope-operation safety. Provided the four scope-lifecycle
operations are invoked only after `initialize` and in well-nested order
(`wn`: every `exit_named_scope`/`decrement_scope` matches a preceding
`enter_named_scope`/`increment_scope` still on the stack, and the two
initial scopes `std.$0` and `global.$0` are never popped), the whole run
succeeds, and at every intermediate point (after any prefix `ops₁`) the
current scope path parses with a `.$N` suffix
(`parse_current_scope` succeeds, hence its `rsplit_once`/`parse` unwraps
cannot panic), the current scope is a vault key (so the
`get_curr_value`/`get_curr_scope_refs` unwraps cannot panic), and the
scope stack is nonempty with the current scope as its last entry (so the
`update_current_scope` unwrap cannot panic). -/
theorem c9_scope_unwrap_safety (ops₁ ops₂ : List ScopeOp)
    (h : wn (ops₁ ++ ops₂) [] = true) :
    ∃ s0 s₁ s₂, interpInit new_state = some s0 ∧
      runOps ops₁ s0 = some s₁ ∧ runOps ops₂ s₁ = some s₂ ∧
      (∃ c n, parse_current_scope s₁ = some (c, n)) ∧
      (∃ sv, alGet s₁.current_scope s₁.vault = some sv) ∧
      s₁.scope_stack.getLast? = some s₁.current_scope := by
  have h₁ := wn_prefix ops₁ ops₂ [] h
  obtain ⟨s₁, mid₁, top₁, hrun₁, hInv₁⟩ :=
    runOps_inv ops₁ [] s0c [] globalFrame h₁ rfl scopeInv_s0c
  obtain ⟨sF, midF, topF, hrunF, hIF⟩ :=
    runOps_inv (ops₁ ++ ops₂) [] s0c [] globalFrame h rfl scopeInv_s0c
  have happ := runOps_append ops₁ ops₂ s0c
  rw [hrunF, hrun₁] at happ
  obtain ⟨hstack, hcur, hh1, hh2, hh3, hvault⟩ := hInv₁
  refine ⟨s0c, s₁, sF, interpInit_eq, hrun₁, happ.symm, ?_, ?_, ?_⟩
  · exact ⟨top₁.1, top₁.2, parse_current_mkPath s₁ top₁.1 top₁.2 hcur⟩
  · obtain ⟨sv, hg, hrg⟩ := hvault top₁ (by simp)
    exact ⟨sv, by rw [hcur]; exact hg⟩
  · rw [hstack, hcur]
    exact inv_stack_getLast mid₁ top₁

/-- Witness for C9: the concrete well-nested sequence
enter `Foo`; exit; open an anonymous block; close it. -/
theorem c9_scope_unwrap_safety_witness :
    (wn ([ScopeOp.enterNamed "Foo".data, ScopeOp.exitNamed,
      ScopeOp.increment] ++ [ScopeOp.decrement]) [] = true) ∧
    (∃ s0 s₁ s₂, interpInit new_state = some s0 ∧
      runOps [ScopeOp.enterNamed "Foo".data, ScopeOp.exitNamed,
        ScopeOp.increment] s0 = some s₁ ∧
      runOps [ScopeOp.decrement] s₁ = some s₂ ∧
      (∃ c n, parse_current_scope s₁ = some (c, n)) ∧
      (∃ sv, alGet s₁.current_scope s₁.vault = some sv) ∧
      s₁.scope_stack.getLast? = some s₁.current_scope) :=
  ⟨by decide, c9_scope_unwrap_safety
    [ScopeOp.enterNamed "Foo".data, ScopeOp.exitNamed, ScopeOp.increment]
    [ScopeOp.decrement] (by decide)⟩

end SymboScript
